import Mathlib

/-!
Shallow embedding of the `ast` module of the lambo repository (the
closure-graph reducer in `src/ast/mod.rs`, its builtins in
`src/ast/builtins/`, and the pre-pass GC in `src/ast/preprocess.rs`).

The Rust code mutates a `petgraph::StableGraph<Node, Edge>` in place.  We
model the graph as a record holding an association list of nodes and a list
of edge records.  Modelling decisions (each noted again at the definition it
concerns):

* petgraph's `StableGraph` keeps `NodeIndex`/`EdgeIndex` values stable under
  deletion of other nodes; we allocate identifiers from monotone counters
  and never reuse them (slot reuse after a deletion is not modelled).
* petgraph iterates the edges incident to a node newest-first; we keep the
  global edge list newest-first (new edges are consed at the front), which
  gives the same relative order for the edges of each node.  Node indices
  iterate oldest-first in petgraph, so the node list is kept oldest-first.
* A Rust panic (a failed `unwrap`, an `assert!`, a division by zero) never
  produces a value, exactly like non-termination, so both are modelled by
  the single non-result `EvalR.div`; `Err(...)` values, which the Rust code
  returns and the caller can observe, are modelled by `EvalR.err`, carrying
  the graph as mutated so far (Rust mutations through `&mut self` persist
  when an error is returned).
* Recursive procedures take an explicit fuel argument; exhausted fuel also
  yields `EvalR.div`.
-/

namespace Lambo

/-- Kind of a variable node (`VariableKind` in `src/ast/mod.rs`). -/
inductive VariableKind where
  | Free (name : String)
  | Bound
deriving DecidableEq, Repr

/-- Primitive values (`Primitive`); `Number = usize` is modelled as `Nat`
(the spec declares numbers unsigned and unbounded in contract). -/
inductive Primitive where
  | Number (n : Nat)
deriving DecidableEq, Repr

/-- Arithmetic builtin tags (`ArithmeticTag` in `src/ast/builtins/arithmetic.rs`). -/
inductive ArithmeticTag where
  | Add
  | Mul
  | Pow
  | Sub
  | Div
  | Eq
deriving DecidableEq, Repr

/-- Helper builtin tags (`HelperFunctionTag` in `src/ast/builtins/helpers.rs`). -/
inductive HelperFunctionTag where
  | CreateConstructor
  | Match
deriving DecidableEq, Repr

/-- Constructor tags (`ConstructorTag` in `src/ast/builtins/mod.rs`). -/
inductive ConstructorTag where
  | Arithmetic (t : ArithmeticTag)
  | HelperFunction (t : HelperFunctionTag)
  | CustomTag (uid : Nat) (arity : Nat)
deriving DecidableEq, Repr

/-- Edge labels (`Edge` in `src/ast/mod.rs`).  The variant
`ConstructorArgument` does not appear in the `Edge` enum of `mod.rs` but is
used by `src/ast/builtins/arithmetic.rs`; it is kept as a distinct label so
that file can be embedded exactly as written. -/
inductive Edge where
  | Body
  | Parameter
  | Function
  | Binder (i : Nat)
  | ConstructorArgument (i : Nat)
  | Debug
deriving DecidableEq, Repr

/-- Whether a label is a `Binder(_)` label (the Rust code tests this with
`matches!(e.weight(), Edge::Binder(_))`). -/
def Edge.isBinder : Edge → Bool
  | .Binder _ => true
  | _ => false

/-- Graph nodes (`Node` in `src/ast/mod.rs`); the `Debug` variant carries the
annotation text of `DebugNode::Annotation`. -/
inductive Node where
  | Lambda (argument_name : String)
  | Application
  | Variable (kind : VariableKind)
  | Primitive (p : Primitive)
  | Closure (argument_name : String)
  | Data (tag : ConstructorTag)
  | Debug (text : String)
deriving DecidableEq, Repr

/-- Whether a node is a `Closure` (used by `matches!` tests in the source). -/
def Node.isClosureNode : Node → Bool
  | .Closure _ => true
  | _ => false

/-- Whether a node is a `Closure` or a `Lambda` (a binder node). -/
def Node.isBinderNode : Node → Bool
  | .Closure _ => true
  | .Lambda _ => true
  | _ => false

/-- Error kinds (`ASTError` in `src/ast/mod.rs`). -/
inductive ASTError where
  | EdgeNotFound (n : Nat) (e : Edge)
  | ParentError (n : Nat)
  | InvalidClosureChain
  | Custom (n : Nat) (msg : String)
deriving DecidableEq, Repr

/-- One edge of the graph: stable identifier, source, target and label. -/
structure EdgeRec where
  eid : Nat
  src : Nat
  dst : Nat
  lab : Edge
deriving DecidableEq, Repr

/-- The expression graph (`AST` in `src/ast/mod.rs`): nodes as an association
list from stable id to node weight (oldest first, matching petgraph's
`node_indices` order), edges newest first (matching petgraph's incident-edge
iteration order), the root, and the allocation counters.  `next_uid` is the
process-unique counter consumed by the `constructor` builtin; the spec (§9)
places it on the graph. -/
structure AST where
  nodes : List (Nat × Node)
  edges : List EdgeRec
  root : Nat
  next_node : Nat
  next_edge : Nat
  next_uid : Nat
deriving DecidableEq, Repr

deriving instance DecidableEq for Except

/-- Outcome of a mutating operation: a result, a surfaced `ASTError`
together with the graph as mutated so far, or no outcome at all (`div`:
non-termination, fuel exhaustion, or a Rust panic). -/
inductive EvalR (α : Type) where
  | ok : α → EvalR α
  | err : ASTError → AST → EvalR α
  | div : EvalR α
deriving DecidableEq, Repr

namespace AST

/-- `self.graph.node_weight(id)`. -/
def nodeWeight (g : AST) (n : Nat) : Option Node :=
  (g.nodes.find? (fun p => p.1 == n)).map (·.2)

/-- `self.graph.add_node(w)`; returns the fresh index with the new graph.
petgraph appends the node, so it is appended to the (oldest-first) list. -/
def add_node (g : AST) (w : Node) : AST × Nat :=
  ({ g with nodes := g.nodes ++ [(g.next_node, w)], next_node := g.next_node + 1 },
   g.next_node)

/-- `self.graph.add_edge(s, t, lab)`.  petgraph makes the new edge the head
of each endpoint's incidence list, hence the cons. -/
def add_edge (g : AST) (s t : Nat) (lab : Edge) : AST :=
  { g with edges := ⟨g.next_edge, s, t, lab⟩ :: g.edges, next_edge := g.next_edge + 1 }

/-- `self.graph.remove_edge(eid)` (dropping the returned weight). -/
def remove_edge (g : AST) (eid : Nat) : AST :=
  { g with edges := g.edges.filter (fun e => e.eid != eid) }

/-- `self.graph.remove_node(n)`: deletes the node and every incident edge;
returns the removed weight like petgraph does. -/
def remove_node_get (g : AST) (n : Nat) : Option Node × AST :=
  (g.nodeWeight n,
   { g with
      nodes := g.nodes.filter (fun p => p.1 != n)
      edges := g.edges.filter (fun e => e.src != n && e.dst != n) })

/-- `self.graph.remove_node(n)` with the returned weight ignored. -/
def remove_node (g : AST) (n : Nat) : AST :=
  (g.remove_node_get n).2

/-- `AST::get_edge_ref`: the first outgoing edge of `expr` carrying `lab`
(first in petgraph's newest-first incidence order). -/
def get_edge_ref (g : AST) (expr : Nat) (lab : Edge) : Option EdgeRec :=
  g.edges.find? (fun e => e.src == expr && e.lab == lab)

/-- `AST::follow_edge`: target of the unique labelled edge, or
`EdgeNotFound`. -/
def follow_edge (g : AST) (expr : Nat) (lab : Edge) : Except ASTError Nat :=
  match g.get_edge_ref expr lab with
  | some e => .ok e.dst
  | none => .error (.EdgeNotFound expr lab)

/-- `AST::redirect_edge`: remove the edge and re-add it from the same source
to `node` with the same label (the re-added edge gets a fresh id and becomes
the newest).  The source unwraps the edge lookup; callers only pass ids of
existing edges, and on a missing id (a Rust panic) the graph is returned
unchanged — every call site below guards this with `EvalR.div` where it
could matter. -/
def redirect_edge (g : AST) (eid : Nat) (node : Nat) : AST :=
  match g.edges.find? (fun e => e.eid == eid) with
  | some e => (g.remove_edge eid).add_edge e.src node e.lab
  | none => g

/-- Incoming non-`Binder` edges of `n`, newest first (the edges
`AST::migrate_node` collects). -/
def incomingNonBinder (g : AST) (n : Nat) : List EdgeRec :=
  g.edges.filter (fun e => e.dst == n && !e.lab.isBinder)

/-- `AST::migrate_node(from, to)`: redirect every incoming non-`Binder` edge
of `from` to `to`; if `from` was the root, the root becomes `to`. -/
def migrate_node (g : AST) (from_ to_ : Nat) : AST :=
  let g' := (g.incomingNonBinder from_).foldl (fun h e => h.redirect_edge e.eid to_) g
  if g.root == from_ then { g' with root := to_ } else g'

/-- `AST::binder_references`: sources of the incoming `Binder` edges of a
binder node. -/
def binder_references (g : AST) (binder_id : Nat) : List Nat :=
  (g.edges.filter (fun e => e.dst == binder_id && e.lab.isBinder)).map (·.src)

/-- Replace the weight of a node (`*self.graph.node_weight_mut(n).unwrap() = w`;
the only use rewrites a `Lambda` in place into a `Closure`). -/
def set_weight (g : AST) (n : Nat) (w : Node) : AST :=
  { g with nodes := g.nodes.map (fun p => if p.1 == n then (p.1, w) else p) }

/-- Outgoing edges of a node, newest first. -/
def outgoing (g : AST) (n : Nat) : List EdgeRec :=
  g.edges.filter (fun e => e.src == n)

/-- The recursion of `AST::remove_subtree` realised as an explicit
depth-first worklist so that the definition is structurally recursive on
its fuel (a `(true, n)` entry visits `n` — collecting its non-`Binder`
children from the current graph, exactly as the source does before
recursing — and a `(false, n)` entry performs the `remove_node(n)` that the
source runs after the recursive calls).  The traversal and removal order is
identical to the source's recursion. -/
def remove_subtree_go : Nat → AST → List (Bool × Nat) → Option AST
  | 0, _, _ => none
  | _ + 1, g, [] => some g
  | fuel + 1, g, (true, n) :: rest =>
    let children := ((g.outgoing n).filter (fun e => !e.lab.isBinder)).map (·.dst)
    remove_subtree_go fuel g (children.map (fun c => (true, c)) ++ (false, n) :: rest)
  | fuel + 1, g, (false, n) :: rest => remove_subtree_go fuel (g.remove_node n) rest

/-- `AST::remove_subtree`: delete `n` and everything reachable from it over
non-`Binder` edges.  The recursion is over a mutating graph, so it takes
fuel; `none` models the non-returning executions (cyclic non-binder edges). -/
def remove_subtree (fuel : Nat) (g : AST) (node_id : Nat) : Option AST :=
  remove_subtree_go fuel g [(true, node_id)]

/-- `AST::clone_subtree`: deep-copy the subtree at `node_id`; `Binder` edges
are rewritten through `binder_remaps` (an association list standing for the
by-value `HashMap`, newest binding first) and fall through to the original
binder when it lies outside the clone.  Rust hands each child the same map
(cloned by value), with the node's own remap (if it is a binder) inserted
first; sibling clones do not see each other's insertions.  The loop over
the collected outgoing edges is a fold so that the definition is
structurally recursive on its fuel. -/
def clone_subtree : Nat → AST → Nat → List (Nat × Nat) → Option (AST × Nat)
  | 0, _, _, _ => none
  | fuel + 1, g, node_id, binder_remaps =>
    match g.nodeWeight node_id with
    | none => none
    | some w =>
      let gc := g.add_node w
      let remaps := if w.isBinderNode then (node_id, gc.2) :: binder_remaps else binder_remaps
      let es := (g.outgoing node_id).map (fun e => (e.dst, e.lab))
      let final := es.foldl
        (fun (acc : Option AST) (te : Nat × Edge) =>
          match acc with
          | none => none
          | some h =>
            match te.2 with
            | .Binder _ =>
              some (h.add_edge gc.2
                (((remaps.find? (fun p => p.1 == te.1)).map (·.2)).getD te.1) te.2)
            | _ =>
              match clone_subtree fuel h te.1 remaps with
              | none => none
              | some ht => some (ht.1.add_edge gc.2 ht.2 te.2))
        (some gc.1)
      match final with
      | none => none
      | some g2 => some (g2, gc.2)

/-- `AST::lift_closure_chain`: if the labelled edge of `node_id` targets a
closure, swap the chain above `node_id` (the two migrations plus the
redirect).  The `assert!` that `node_under_closures` is not itself a closure
panics on failure (`EvalR.div`), as does a dead `node_under_closures`. -/
def lift_closure_chain (g : AST) (node_id node_under_closures : Nat) (edge : Edge) :
    EvalR AST :=
  match g.nodeWeight node_under_closures with
  | none => .div
  | some (.Closure _) => .div
  | some _ =>
    match g.get_edge_ref node_id edge with
    | none => .err (.EdgeNotFound node_id edge) g
    | some e =>
      match g.nodeWeight e.dst with
      | none => .div
      | some (.Closure _) =>
        let first_closure := e.dst
        let g1 := g.migrate_node node_id first_closure
        let g2 := g1.migrate_node node_under_closures node_id
        -- `redirect_edge` unwraps the endpoints of the edge id captured
        -- above; if one of the migrations has consumed that id (a
        -- degenerate self-loop), Rust panics.
        match g2.edges.find? (fun f => f.eid == e.eid) with
        | none => .div
        | some _ => .ok (g2.redirect_edge e.eid node_under_closures)
      | some _ => .ok g

/-- `AST::remove_closure`: migrate the closure's parents to its `Body`,
delete it, and hand back the now dangling `Parameter`.  The two
`follow_edge(..).unwrap()` calls panic when the edges are missing. -/
def remove_closure (g : AST) (closure_id : Nat) : Option (Nat × AST) :=
  match g.follow_edge closure_id .Body with
  | .error _ => none
  | .ok body =>
    match g.follow_edge closure_id .Parameter with
    | .error _ => none
    | .ok parameter =>
      let g1 := g.migrate_node closure_id body
      some (parameter, g1.remove_node closure_id)

end AST

/-- Stable insertion sort by a `Nat` key (Rust's `sort_by_key` is stable). -/
def insertByKey (key : EdgeRec → Nat) (e : EdgeRec) : List EdgeRec → List EdgeRec
  | [] => [e]
  | x :: xs => if key e < key x then e :: x :: xs else x :: insertByKey key e xs

/-- Stable sort by a `Nat` key. -/
def sortByKey (key : EdgeRec → Nat) : List EdgeRec → List EdgeRec
  | [] => []
  | x :: xs => insertByKey key x (sortByKey key xs)

/-- `ConstructorTag::get_binders`: the outgoing edges of a data node sorted
by their `Binder` argument index; the sort key panics (`none`) on any
outgoing edge that is not a `Binder`. -/
def ConstructorTag.get_binders (g : AST) (id : Nat) : Option (List Nat) :=
  let es := g.outgoing id
  if es.all (fun e => e.lab.isBinder) then
    some ((sortByKey
      (fun e => match e.lab with | .Binder i => i | _ => 0) es).map (·.dst))
  else none

/-- `Primitive::extract_number`.  Modelled from the spec: the method is
called on `Primitive` values by the helper builtins but its definition is
not among the sources; `Primitive` has the single variant `Number`, whose
payload it returns. -/
def Primitive.extract_number : Primitive → Nat
  | .Number n => n

/-- `AST::add_expr_from_str` applied to the two Church booleans, the only
strings the arithmetic builtin parses.  Modelled from the spec: the parser
is an external collaborator (§6) and `add_expr_from_str` for `AST` is not
among the sources; per §4.4 `Eq` yields Church-true `λx.λy.x` or
Church-false `λx.λy.y`, built here as the two lambda nodes and a bound
variable whose `Binder(0)` edge selects the outer or inner lambda. -/
def AST.add_church (g : AST) (isTrue : Bool) : AST × Nat :=
  let (g1, lx) := g.add_node (.Lambda "x")
  let (g2, ly) := g1.add_node (.Lambda "y")
  let (g3, v) := g2.add_node (.Variable .Bound)
  let g4 := (g3.add_edge lx ly .Body).add_edge ly v .Body
  let g5 := g4.add_edge v (if isTrue then lx else ly) (.Binder 0)
  (g5, lx)

/-- Pure part of `ArithmeticTag::evaluate` for the numeric tags: `none`
models the division-by-zero panic; `Pow` truncates its exponent through the
`as u32` cast.  (`Add`, `Mul`, `Pow` are modelled on unbounded naturals, as
the spec's contract declares numbers unbounded.) -/
def ArithmeticTag.compute (t : ArithmeticTag) (what to_ : Nat) : Option Nat :=
  match t with
  | .Add => some (what + to_)
  | .Mul => some (what * to_)
  | .Pow => some (to_ ^ (what % 2 ^ 32))
  | .Sub => some (to_ - what)
  | .Div => if what == 0 then none else some (to_ / what)
  | .Eq => none

/-- The per-variable redirection loop of the aliasing shortcut in
`AST::evaluate`: for each collected referrer of the lambda, move its first
edge into the lambda over to the true binder (keeping the weight); a
missing edge is the `unwrap` panic (`none`). -/
def redirect_binder_refs (g : AST) (function_target true_binder : Nat) :
    List Nat → Option AST
  | [] => some g
  | v :: vs =>
    match g.edges.find? (fun e => e.src == v && e.dst == function_target) with
    | none => none
    | some e =>
      redirect_binder_refs ((g.remove_edge e.eid).add_edge v true_binder e.lab)
        function_target true_binder vs

/-- The constructor-walking loop inside the `Match` arm of
`HelperFunctionTag::evaluate`: follow `Closure`/`Lambda` bodies and
`Application` function edges until a `Data` node; only a `CustomTag` is
accepted (`unreachable!` otherwise, a panic).  The loop does not mutate the
graph. -/
def match_walk_constructor : Nat → AST → Nat → EvalR (Nat × Nat)
  | 0, _, _ => .div
  | fuel + 1, g, current =>
    match g.nodeWeight current with
    | none => .div
    | some (.Closure _) | some (.Lambda _) =>
      match g.follow_edge current .Body with
      | .error e => .err e g
      | .ok next => match_walk_constructor fuel g next
    | some .Application =>
      match g.follow_edge current .Function with
      | .error e => .err e g
      | .ok next => match_walk_constructor fuel g next
    | some (.Data (.CustomTag uid _)) => .ok (uid, current)
    | some (.Data _) => .div
    | some _ => .div

/-!
The reducer is a nest of mutually recursive procedures.  To keep every
definition computable by the kernel (so that concrete runs can be settled by
`decide`), each procedure other than `evaluate` is first written as a
non-recursive template abstracted over the evaluator `ev` it calls back
into; `evaluate` itself then recurses structurally on its fuel, and the
source-named procedures are definitional instances of the templates.
-/

/-- Template for the `skip_through` closure inside the `Application` arm of
`AST::evaluate`: replace the application by the lambda body, delete the
application and the lambda, delete the parameter subtree, re-evaluate. -/
def skip_throughT (ev : AST → Nat → EvalR (Nat × AST)) (rsfuel : Nat) (g : AST)
    (node_id function_target parameter_target : Nat) : EvalR (Nat × AST) :=
  match g.follow_edge function_target .Body with
  | .error e => .err e g
  | .ok body =>
    let g1 := g.migrate_node node_id body
    let g2 := (g1.remove_node node_id).remove_node function_target
    match AST.remove_subtree rsfuel g2 parameter_target with
    | none => .div
    | some g3 => ev g3 body

/-- Template for `AST::evaluate_closure_parameter`: force the closure's
parameter, count the incoming `Binder` edges (`take(2).count() == 2`), lift,
and either keep the closure (`dangling = false`) or strip it
(`dangling = true`). -/
def evaluate_closure_parameterT (ev : AST → Nat → EvalR (Nat × AST)) (g : AST)
    (binding_closure_id : Nat) : EvalR (Nat × Bool × AST) :=
  match g.follow_edge binding_closure_id .Parameter with
  | .error e => .err e g
  | .ok t0 =>
    match ev g t0 with
    | .div => .div
    | .err e g' => .err e g'
    | .ok (under_closures, g1) =>
      let has_other_referrers := decide (2 ≤ (g1.binder_references binding_closure_id).length)
      match g1.lift_closure_chain binding_closure_id under_closures .Parameter with
      | .div => .div
      | .err e g' => .err e g'
      | .ok g2 =>
        if has_other_referrers then
          match g2.follow_edge binding_closure_id .Parameter with
          | .error e => .err e g2
          | .ok p => .ok (p, false, g2)
        else
          match g2.remove_closure binding_closure_id with
          | none => .div
          | some (q, g3) => .ok (q, true, g3)

/-- Template for `AST::extract_primitive_from_environment`
(src/ast/builtins/mod.rs). -/
def extract_primitive_from_environmentT (ev : AST → Nat → EvalR (Nat × AST))
    (g : AST) (closure_id : Nat) : EvalR (Primitive × AST) :=
  match evaluate_closure_parameterT ev g closure_id with
  | .div => .div
  | .err e g' => .err e g'
  | .ok (parameter, is_dangling, g1) =>
    let pg :=
      if is_dangling then g1.remove_node_get parameter
      else (g1.nodeWeight parameter, g1)
    match pg.1 with
    | some (.Primitive p) => .ok (p, pg.2)
    | _ => .err (.Custom closure_id "Not a primitive") pg.2

/-- Template for one argument fetch of `ArithmeticTag::evaluate`: evaluate
the `ConstructorArgument(i)` target, then re-follow the edge and read the
node as a `Primitive::Number`.  Errors (`?` inside the closure passed to
`map`) are captured in the result rather than aborting, because Rust
materialises both closures' results before unwrapping either. -/
def arithmetic_fetchT (ev : AST → Nat → EvalR (Nat × AST)) (g : AST)
    (id argument_index : Nat) : EvalR (Except ASTError Nat × AST) :=
  match g.follow_edge id (.ConstructorArgument argument_index) with
  | .error e => .ok (.error e, g)
  | .ok t =>
    match ev g t with
    | .div => .div
    | .err e g' => .ok (.error e, g')
    | .ok (_, g1) =>
      match g1.follow_edge id (.ConstructorArgument argument_index) with
      | .error e => .ok (.error e, g1)
      | .ok t' =>
        match g1.nodeWeight t' with
        | some (.Primitive (.Number n)) => .ok (.ok n, g1)
        | _ => .ok (.error (.Custom t' "NaN"), g1)

/-- Template for `ArithmeticTag::evaluate`
(src/ast/builtins/arithmetic.rs): strict in both arguments; `what` is the
first argument, `to` the second. -/
def ArithmeticTag.evaluateT (ev : AST → Nat → EvalR (Nat × AST))
    (t : ArithmeticTag) (g : AST) (id : Nat) : EvalR (Nat × AST) :=
  match arithmetic_fetchT ev g id 0 with
  | .div => .div
  | .err e g' => .err e g'
  | .ok (what, g1) =>
    match arithmetic_fetchT ev g1 id 1 with
    | .div => .div
    | .err e g' => .err e g'
    | .ok (to_, g2) =>
      match what with
      | .error e => .err e g2
      | .ok what =>
        match to_ with
        | .error e => .err e g2
        | .ok to_ =>
          match t with
          | .Eq =>
            let cr := g2.add_church (what == to_)
            .ok (cr.2, cr.1.migrate_node id cr.2)
          | _ =>
            match t.compute what to_ with
            | none => .div
            | some n =>
              let nr := g2.add_node (.Primitive (.Number n))
              .ok (nr.2, nr.1.migrate_node id nr.2)

/-- Template for `HelperFunctionTag::evaluate`
(src/ast/builtins/helpers.rs). -/
def HelperFunctionTag.evaluateT (ev : AST → Nat → EvalR (Nat × AST)) (wfuel : Nat)
    (t : HelperFunctionTag) (g : AST) (id : Nat) : EvalR (Nat × AST) :=
  match ConstructorTag.get_binders g id with
  | none => .div
  | some binders =>
    match t with
    | .CreateConstructor =>
      match binders with
      | [arity_binder] =>
        match extract_primitive_from_environmentT ev g arity_binder with
        | .div => .div
        | .err e g' => .err e g'
        | .ok (p, g1) =>
          let tag := ConstructorTag.CustomTag g1.next_uid p.extract_number
          let g2 := { g1 with next_uid := g1.next_uid + 1 }
          let cr := g2.add_node (.Data tag)
          let g4 := cr.1.migrate_node id cr.2
          .ok (cr.2, g4.remove_node id)
      | _ => .err (.Custom id "Incorrect argument count for CreateConstructor") g
    | .Match =>
      match binders with
      | [constructor_binder, transform, fallback, value_binder] =>
        -- We are strict only in constructor and value
        match evaluate_closure_parameterT ev g constructor_binder with
        | .div => .div
        | .err e g' => .err e g'
        | .ok (constructor, _, g1) =>
          match evaluate_closure_parameterT ev g1 value_binder with
          | .div => .div
          | .err e g' => .err e g'
          | .ok (value, is_value_dangling, g2) =>
            match g2.nodeWeight value with
            | none => .div
            | some (.Data (.CustomTag value_tag_uid _)) =>
              match match_walk_constructor wfuel g2 constructor with
              | .div => .div
              | .err e g' => .err e g'
              | .ok (constructor_tag_uid, _) =>
                if constructor_tag_uid == value_tag_uid then
                  match ConstructorTag.get_binders g2 value with
                  | none => .div
                  | some value_binders =>
                    -- One application per value argument, each holding a
                    -- fresh variable into that argument's binder; the fold
                    -- accumulates the applications in reverse (`.rev()`).
                    let ga := value_binders.foldl
                      (fun (acc : AST × List Nat) constructor_binder =>
                        let hv := acc.1.add_node (.Variable .Bound)
                        let h1 := hv.1.add_edge hv.2 constructor_binder (.Binder 0)
                        let ha := h1.add_node .Application
                        let h3 := ha.1.add_edge ha.2 hv.2 .Parameter
                        (h3, ha.2 :: acc.2))
                      (g2, [])
                    let g4 := if is_value_dangling then ga.1.remove_node value else ga.1
                    let tv := g4.add_node (.Variable .Bound)
                    -- petgraph's add_edge panics when an endpoint is dead;
                    -- `transform` was read off before the two strict
                    -- arguments were forced and may have been deleted.
                    match tv.1.nodeWeight transform with
                    | none => .div
                    | some _ =>
                    let g6 := tv.1.add_edge tv.2 transform (.Binder 0)
                    let chain := ga.2 ++ [tv.2]
                    let g7 := (chain.zip chain.tail).foldl
                      (fun h w => h.add_edge w.1 w.2 .Function) g6
                    match chain.head? with
                    | none => .div
                    | some head =>
                      let g8 := g7.migrate_node id head
                      ev (g8.remove_node id) head
                else
                  -- Call fallback with value again (chainable #match)
                  let fv := g2.add_node (.Variable .Bound)
                  -- The stale `fallback` and `value_binder` indices may have
                  -- been deleted while the strict arguments were forced;
                  -- petgraph's add_edge panics on a dead endpoint.
                  match fv.1.nodeWeight fallback with
                  | none => .div
                  | some _ =>
                  let g4 := fv.1.add_edge fv.2 fallback (.Binder 0)
                  match (if is_value_dangling then some () else
                    (g4.nodeWeight value_binder).map (fun _ => ())) with
                  | none => .div
                  | some _ =>
                  let vv :=
                    if is_value_dangling then (g4, value)
                    else
                      let hv := g4.add_node (.Variable .Bound)
                      (hv.1.add_edge hv.2 value_binder (.Binder 0), hv.2)
                  let ap := vv.1.add_node .Application
                  let g7 := (ap.1.add_edge ap.2 fv.2 .Function).add_edge ap.2 vv.2 .Parameter
                  let g8 := g7.migrate_node id ap.2
                  ev (g8.remove_node id) ap.2
            | some _ => .err (.Custom value "Not a data constructor") g2
      | _ => .err (.Custom id "Incorrect argument count for Match") g

/-- Template for `ConstructorTag::evaluate` (src/ast/builtins/mod.rs):
dispatch on the tag family; `CustomTag` data is inert. -/
def ConstructorTag.evaluateT (ev : AST → Nat → EvalR (Nat × AST)) (wfuel : Nat)
    (tag : ConstructorTag) (g : AST) (id : Nat) : EvalR (Nat × AST) :=
  match tag with
  | .Arithmetic t => ArithmeticTag.evaluateT ev t g id
  | .HelperFunction t => HelperFunctionTag.evaluateT ev wfuel t g id
  | .CustomTag _ _ => .ok (id, g)

/-- `AST::evaluate` (src/ast/mod.rs): the weak-head reducer.  Returns the
node under any residual closure chain together with the mutated graph.
Structural recursion on the fuel; every recursive entry spends one unit. -/
def evaluate : Nat → AST → Nat → EvalR (Nat × AST)
  | 0, _, _ => .div
  | fuel + 1, g, node_id =>
    match g.nodeWeight node_id with
    | none => .div
    | some (.Closure _) =>
      match g.follow_edge node_id .Body with
      | .error e => .err e g
      | .ok body => evaluate fuel g body
    | some .Application =>
      match g.follow_edge node_id .Function with
      | .error e => .err e g
      | .ok func =>
        match evaluate fuel g func with
        | .div => .div
        | .err e g' => .err e g'
        | .ok (under_closures, g1) =>
          match g1.lift_closure_chain node_id under_closures .Function with
          | .div => .div
          | .err e g' => .err e g'
          | .ok g2 =>
            match g2.follow_edge node_id .Function with
            | .error e => .err e g2
            | .ok function_target =>
              match g2.follow_edge node_id .Parameter with
              | .error e => .err e g2
              | .ok parameter_target =>
                match g2.nodeWeight function_target with
                | none => .div
                | some (.Lambda argument_name) =>
                  if (g2.binder_references function_target).isEmpty then
                    -- Function has no binders, parameter will be ignored!
                    skip_throughT (evaluate fuel) (fuel + 1) g2 node_id
                      function_target parameter_target
                  else
                    match g2.nodeWeight parameter_target with
                    | none => .div
                    | some (.Variable .Bound) =>
                      -- Parameter is merely pointing elsewhere: redirect all
                      -- variables of the lambda to the true binder.
                      match g2.follow_edge parameter_target (.Binder 0) with
                      | .error e => .err e g2
                      | .ok true_binder =>
                        match redirect_binder_refs g2 function_target true_binder
                            (g2.binder_references function_target) with
                        | none => .div
                        | some g3 =>
                          skip_throughT (evaluate fuel) (fuel + 1) g3 node_id
                            function_target parameter_target
                    | some _ =>
                      -- General case: the lambda node becomes a closure.
                      let g3 := g2.migrate_node node_id function_target
                      let g4 := g3.set_weight function_target (.Closure argument_name)
                      match g4.follow_edge node_id .Parameter with
                      | .error e => .err e g4
                      | .ok pt =>
                        let g5 := g4.add_edge function_target pt .Parameter
                        let g6 := g5.remove_node node_id
                        evaluate fuel g6 function_target
                | some _ => .ok (node_id, g2)
    | some (.Variable .Bound) =>
      match g.follow_edge node_id (.Binder 0) with
      | .error e => .err e g
      | .ok binding_closure_id =>
        match evaluate_closure_parameterT (evaluate fuel) g binding_closure_id with
        | .div => .div
        | .err e g' => .err e g'
        | .ok (parameter, is_dangling, g1) =>
          match
            (if is_dangling then some (g1, parameter)
             else AST.clone_subtree (fuel + 1) g1 parameter []) with
          | none => .div
          | some (g2, cloned_node_id) =>
            let g3 := g2.migrate_node node_id cloned_node_id
            .ok (cloned_node_id, g3.remove_node node_id)
    | some (.Data tag) => ConstructorTag.evaluateT (evaluate fuel) (fuel + 1) tag g node_id
    | some _ => .ok (node_id, g)

/-- The `skip_through` closure inside the `Application` arm of
`AST::evaluate`, at fuel `fuel` (as invoked by `evaluate (fuel + 1)`). -/
def skip_through (fuel : Nat) (g : AST) (node_id function_target parameter_target : Nat) :
    EvalR (Nat × AST) :=
  skip_throughT (evaluate fuel) (fuel + 1) g node_id function_target parameter_target

/-- `AST::evaluate_closure_parameter` (src/ast/mod.rs), at fuel `fuel`. -/
def evaluate_closure_parameter (fuel : Nat) (g : AST) (binding_closure_id : Nat) :
    EvalR (Nat × Bool × AST) :=
  evaluate_closure_parameterT (evaluate fuel) g binding_closure_id

/-- `AST::extract_primitive_from_environment` (src/ast/builtins/mod.rs),
at fuel `fuel`. -/
def extract_primitive_from_environment (fuel : Nat) (g : AST) (closure_id : Nat) :
    EvalR (Primitive × AST) :=
  extract_primitive_from_environmentT (evaluate fuel) g closure_id

/-- One argument fetch of `ArithmeticTag::evaluate`, at fuel `fuel`. -/
def arithmetic_fetch (fuel : Nat) (g : AST) (id argument_index : Nat) :
    EvalR (Except ASTError Nat × AST) :=
  arithmetic_fetchT (evaluate fuel) g id argument_index

/-- `ArithmeticTag::evaluate` (src/ast/builtins/arithmetic.rs), at fuel `fuel`. -/
def ArithmeticTag.evaluate (fuel : Nat) (t : ArithmeticTag) (g : AST) (id : Nat) :
    EvalR (Nat × AST) :=
  ArithmeticTag.evaluateT (Lambo.evaluate fuel) t g id

/-- `HelperFunctionTag::evaluate` (src/ast/builtins/helpers.rs), at fuel `fuel`. -/
def HelperFunctionTag.evaluate (fuel : Nat) (t : HelperFunctionTag) (g : AST) (id : Nat) :
    EvalR (Nat × AST) :=
  HelperFunctionTag.evaluateT (Lambo.evaluate fuel) (fuel + 1) t g id

/-- `ConstructorTag::evaluate` (src/ast/builtins/mod.rs), at fuel `fuel`. -/
def ConstructorTag.evaluate (fuel : Nat) (tag : ConstructorTag) (g : AST) (id : Nat) :
    EvalR (Nat × AST) :=
  ConstructorTag.evaluateT (Lambo.evaluate fuel) (fuel + 1) tag g id

/-- The body of the `for` loop in `AST::garbage_collect`
(src/ast/preprocess.rs): strip each collected closure and delete its
parameter subtree; `remove_closure(..).unwrap()` panics on a closure that an
earlier deletion in the same batch already removed. -/
def garbage_collect_batch (fuel : Nat) : AST → List Nat → Option AST
  | g, [] => some g
  | g, closure_id :: rest =>
    match g.remove_closure closure_id with
    | none => none
    | some (parameter, g1) =>
      match AST.remove_subtree fuel g1 parameter with
      | none => none
      | some g2 => garbage_collect_batch fuel g2 rest

/-- `AST::garbage_collect` (src/ast/preprocess.rs): repeatedly collect every
`Closure` with no incoming `Binder` edge and strip it, until none remain. -/
def garbage_collect : Nat → AST → Option AST
  | 0, _ => none
  | fuel + 1, g =>
    let unused_closures :=
      (g.nodes.filter
        (fun p => p.2.isClosureNode && (g.binder_references p.1).isEmpty)).map (·.1)
    if unused_closures.isEmpty then some g
    else
      match garbage_collect_batch (fuel + 1) g unused_closures with
      | none => none
      | some g' => garbage_collect fuel g'

/-- The identity application `(λx. x) 5`: an `Application` node (the root,
node 2) applying the lambda node 0 (whose bound variable node 1 carries a
`Binder 0` edge back to it) to the primitive node 3. -/
def C3wg : AST where
  nodes := [(0, .Lambda "x"), (1, .Variable .Bound), (2, .Application), (3, .Primitive (.Number 5))]
  edges := [⟨3, 2, 3, .Parameter⟩, ⟨2, 2, 0, .Function⟩, ⟨1, 1, 0, .Binder 0⟩, ⟨0, 0, 1, .Body⟩]
  root := 2
  next_node := 4
  next_edge := 4
  next_uid := 0

/-- The saturated builtin application `Sub a b` as a `Data` node: node 0
carries the `Arithmetic Sub` tag and its two `ConstructorArgument` edges
point at the primitive numbers `a` and `b`. -/
def testG2 (a b : Nat) : AST where
  nodes := [(0, .Data (.Arithmetic .Sub)), (1, .Primitive (.Number a)),
            (2, .Primitive (.Number b))]
  edges := [⟨1, 0, 2, .ConstructorArgument 1⟩, ⟨0, 0, 1, .ConstructorArgument 0⟩]
  root := 0
  next_node := 3
  next_edge := 2
  next_uid := 0

/-! ### C1: shape of the node returned by `evaluate` -/

/-- The shape the claim allows for the node returned by `evaluate`: a
`Primitive`, a free `Variable`, a `Lambda`, or a `Data` node with a
user-defined (`CustomTag`) — the only inert — constructor. -/
def whnf_claim_shape : Node → Bool
  | .Primitive _ => true
  | .Variable (.Free _) => true
  | .Lambda _ => true
  | .Data (.CustomTag _ _) => true
  | _ => false

/-- Counterexample graph for C1: the application `f 1` with `f` a free
variable — node 0 is an `Application` whose `Function` edge targets the
free variable node 1 and whose `Parameter` edge targets the primitive
node 2. -/
def C1g : AST where
  nodes := [(0, .Application), (1, .Variable (.Free "f")), (2, .Primitive (.Number 1))]
  edges := [⟨1, 0, 2, .Parameter⟩, ⟨0, 0, 1, .Function⟩]
  root := 0
  next_node := 3
  next_edge := 2
  next_uid := 0

/-- C1 counterexample: `evaluate` succeeds on the application `f 1` (the
head reduces to a free variable, which is not a lambda, so the code stops)
and returns the `Application` node itself — which is neither a `Primitive`,
a free `Variable`, a `Lambda`, a user-tagged `Data` node, nor a `Closure`
heading a residual chain.  This refutes the claim as stated. -/
theorem C1_counterexample :
    (match evaluate 5 C1g C1g.root with
      | .ok (n', gF) => gF.nodeWeight n'
      | _ => none) = some .Application ∧
    whnf_claim_shape .Application = false ∧
    Node.isClosureNode .Application = false :=
  ⟨by decide, by decide, by decide⟩

/-! ### C3: binder uniqueness is not preserved by `evaluate` -/

/-- Nodes reachable from `acc` in at most `fuel` expansion rounds,
following every edge of the graph. -/
def reach_iter : Nat → AST → List Nat → List Nat
  | 0, _, acc => acc
  | fuel + 1, g, acc =>
    let next := ((g.edges.filter
      (fun e => acc.contains e.src && !acc.contains e.dst)).map (·.dst)).dedup
    if next.isEmpty then acc else reach_iter fuel g (acc ++ next)

/-- The nodes reachable from the root (every round either adds a node or
stops, so `nodes.length + edges.length` rounds always suffice). -/
def reachable (g : AST) : List Nat :=
  reach_iter (g.nodes.length + g.edges.length) g [g.root]

/-- The binder-uniqueness invariant exactly as the claim states it: every
`Variable(Bound)` node reachable from the root has exactly one outgoing
`Binder` edge, it is `Binder(0)`, and its target is a `Lambda` or `Closure`
node. -/
def binder_uniqueness (g : AST) : Bool :=
  (reachable g).all fun n =>
    match g.nodeWeight n with
    | some (.Variable .Bound) =>
      match (g.outgoing n).filter (fun e => e.lab.isBinder) with
      | [e] =>
        e.lab == .Binder 0 &&
          (match g.nodeWeight e.dst with
           | some (.Lambda _) => true
           | some (.Closure _) => true
           | _ => false)
      | _ => false
    | _ => true

/-- Counterexample graph for C3: `(λx. λw. v) (λy. y)` where the bound
variable `v` (node 3) refers to the argument lambda `λy` (node 4) from
outside it.  Binder uniqueness holds, yet the application's dead-parameter
shortcut deletes the subtree of node 4 — the binder of the still-reachable
variable 3. -/
def C3g : AST where
  nodes := [(0, .Application), (1, .Lambda "x"), (2, .Lambda "w"),
            (3, .Variable .Bound), (4, .Lambda "y"), (5, .Variable .Bound)]
  edges := [⟨6, 0, 4, .Parameter⟩, ⟨5, 3, 4, .Binder 0⟩, ⟨4, 5, 4, .Binder 0⟩,
            ⟨3, 4, 5, .Body⟩, ⟨2, 2, 3, .Body⟩, ⟨1, 1, 2, .Body⟩,
            ⟨0, 0, 1, .Function⟩]
  root := 0
  next_node := 6
  next_edge := 7
  next_uid := 0

/-- C3 counterexample: binder uniqueness holds on `C3g` before the call,
`evaluate` succeeds (the unused parameter `λy.y` is deleted by the
dead-parameter shortcut, and the result `λw.v` is a lambda in WHNF), yet
afterwards the reachable bound variable node 3 has no `Binder` edge at all:
its binder was deleted with the parameter subtree.  This refutes the claim
as stated. -/
theorem C3_counterexample :
    binder_uniqueness C3g = true ∧
    (match evaluate 9 C3g C3g.root with
      | .ok (_, gF) => some (binder_uniqueness gF)
      | _ => none) = some false :=
  ⟨by decide, by decide⟩

/-! ### Basic facts about the graph operations -/

namespace AST

theorem nodes_add_edge (g : AST) (s t : Nat) (lab : Edge) :
    (g.add_edge s t lab).nodes = g.nodes := rfl

theorem nodes_remove_edge (g : AST) (eid : Nat) :
    (g.remove_edge eid).nodes = g.nodes := rfl

theorem nodes_redirect_edge (g : AST) (eid n : Nat) :
    (g.redirect_edge eid n).nodes = g.nodes := by
  unfold redirect_edge
  cases g.edges.find? (fun e => e.eid == eid) <;> rfl

theorem nodes_migrate_node (g : AST) (a b : Nat) :
    (g.migrate_node a b).nodes = g.nodes := by
  unfold migrate_node
  have key : ∀ (l : List EdgeRec) (h : AST),
      (l.foldl (fun h e => h.redirect_edge e.eid b) h).nodes = h.nodes := by
    intro l
    induction l with
    | nil => intro h; rfl
    | cons e es ih => intro h; rw [List.foldl_cons, ih, nodes_redirect_edge]
  split <;> simp [key]

theorem nodeWeight_migrate_node (g : AST) (a b n : Nat) :
    (g.migrate_node a b).nodeWeight n = g.nodeWeight n := by
  unfold nodeWeight
  rw [nodes_migrate_node]

theorem nodeWeight_add_node_self (g : AST) (w : Node)
    (hf : ∀ p ∈ g.nodes, p.1 < g.next_node) :
    (g.add_node w).1.nodeWeight (g.add_node w).2 = some w := by
  unfold add_node nodeWeight
  have hnone : g.nodes.find? (fun p => p.1 == g.next_node) = none := by
    rw [List.find?_eq_none]
    intro p hp
    have := hf p hp
    simp only [beq_iff_eq]
    omega
  simp [List.find?_append, hnone]

end AST

/-! ### Edge wellformedness and the behaviour of `follow_edge` under mutation -/

/-- Edge-side wellformedness: edge identifiers are below the allocation
counter and pairwise distinct.  Every graph the parser builds satisfies
this, and every operation preserves it. -/
def AST.WfE (g : AST) : Prop :=
  (∀ e ∈ g.edges, e.eid < g.next_edge) ∧
    g.edges.Pairwise (fun a b => a.eid ≠ b.eid)

namespace ListFacts

theorem find?_filter_of_find?_eq_some {α : Type} {p q : α → Bool} {l : List α} {e : α}
    (h : l.find? p = some e) (hq : q e = true) :
    (l.filter q).find? p = some e := by
  induction l with
  | nil => simp at h
  | cons a l ih =>
    by_cases hp : p a
    · rw [List.find?_cons_of_pos _ hp] at h
      cases h
      rw [List.filter_cons, if_pos hq, List.find?_cons_of_pos _ hp]
    · rw [List.find?_cons_of_neg _ hp] at h
      rw [List.filter_cons]
      by_cases hqa : q a
      · rw [if_pos hqa, List.find?_cons_of_neg _ hp]
        exact ih h
      · rw [if_neg hqa]
        exact ih h

theorem find?_filter_of_imp {α : Type} {p q : α → Bool} {l : List α}
    (h : ∀ x ∈ l, p x = true → q x = true) :
    (l.filter q).find? p = l.find? p := by
  induction l with
  | nil => simp
  | cons a l ih =>
    rw [List.filter_cons]
    by_cases hp : p a
    · rw [if_pos (h a (by simp) hp), List.find?_cons_of_pos _ hp,
        List.find?_cons_of_pos _ hp]
    · have hrest : ∀ x ∈ l, p x = true → q x = true := fun x hx => h x (by simp [hx])
      by_cases hqa : q a
      · rw [if_pos hqa, List.find?_cons_of_neg _ hp, List.find?_cons_of_neg _ hp]
        exact ih hrest
      · rw [if_neg hqa, List.find?_cons_of_neg _ hp]
        exact ih hrest

theorem find?_eq_some_of_mem_unique {α : Type} {p : α → Bool} {l : List α} {e : α}
    (hmem : e ∈ l) (hp : p e = true)
    (huniq : ∀ x ∈ l, p x = true → x = e) :
    l.find? p = some e := by
  induction l with
  | nil => simp at hmem
  | cons a l ih =>
    by_cases hpa : p a
    · rw [List.find?_cons_of_pos _ hpa]
      rw [huniq a (by simp) hpa]
    · rw [List.find?_cons_of_neg _ hpa]
      rcases List.mem_cons.1 hmem with rfl | hmem'
      · simp [hp] at hpa
      · exact ih hmem' fun x hx => huniq x (by simp [hx])

end ListFacts

namespace AST

theorem get_edge_ref_props {g : AST} {c : Nat} {lab : Edge} {e : EdgeRec}
    (h : g.get_edge_ref c lab = some e) :
    e ∈ g.edges ∧ e.src = c ∧ e.lab = lab := by
  unfold get_edge_ref at h
  refine ⟨List.mem_of_find?_eq_some h, ?_, ?_⟩
  · have := List.find?_some h
    simp only [Bool.and_eq_true, beq_iff_eq] at this
    exact this.1
  · have := List.find?_some h
    simp only [Bool.and_eq_true, beq_iff_eq] at this
    exact this.2

theorem follow_edge_ok_iff {g : AST} {c : Nat} {lab : Edge} {m : Nat} :
    g.follow_edge c lab = .ok m ↔
      ∃ e, g.get_edge_ref c lab = some e ∧ e.dst = m := by
  unfold follow_edge
  cases h : g.get_edge_ref c lab <;> simp

/-! Edge ids after each primitive mutation. -/

theorem wfE_add_edge {g : AST} (h : g.WfE) (s t : Nat) (lab : Edge) :
    (g.add_edge s t lab).WfE := by
  obtain ⟨hb, hp⟩ := h
  constructor
  · intro e he
    simp only [add_edge, List.mem_cons] at he
    rcases he with rfl | he
    · simp [add_edge]
    · have := hb e he
      simp only [add_edge]
      omega
  · simp only [add_edge, List.pairwise_cons]
    refine ⟨fun e he => ?_, hp⟩
    have := hb e he
    omega

theorem wfE_remove_edge {g : AST} (h : g.WfE) (eid : Nat) :
    (g.remove_edge eid).WfE := by
  obtain ⟨hb, hp⟩ := h
  exact ⟨fun e he => hb e (List.mem_of_mem_filter he), hp.sublist (List.filter_sublist _)⟩

theorem wfE_redirect_edge {g : AST} (h : g.WfE) (eid n : Nat) :
    (g.redirect_edge eid n).WfE := by
  unfold redirect_edge
  cases g.edges.find? (fun e => e.eid == eid) with
  | none => exact h
  | some e => exact wfE_add_edge (wfE_remove_edge h eid) _ _ _

theorem wfE_foldl_redirect {l : List EdgeRec} {b : Nat} :
    ∀ {g : AST}, g.WfE →
      (l.foldl (fun h e => h.redirect_edge e.eid b) g).WfE := by
  induction l with
  | nil => intro g h; exact h
  | cons e es ih => intro g h; exact ih (wfE_redirect_edge h e.eid b)

theorem wfE_migrate_node {g : AST} (h : g.WfE) (a b : Nat) :
    (g.migrate_node a b).WfE := by
  unfold migrate_node
  have h' := wfE_foldl_redirect (l := g.incomingNonBinder a) (b := b) h
  split
  · exact h'
  · exact h'

theorem wfE_remove_node {g : AST} (h : g.WfE) (x : Nat) :
    (g.remove_node x).WfE := by
  obtain ⟨hb, hp⟩ := h
  exact ⟨fun e he => hb e (List.mem_of_mem_filter he), hp.sublist (List.filter_sublist _)⟩

theorem wfE_add_node {g : AST} (h : g.WfE) (w : Node) :
    (g.add_node w).1.WfE := h

/-! `follow_edge` after each primitive mutation. -/

theorem follow_add_edge_self (g : AST) (s t : Nat) (lab : Edge) :
    (g.add_edge s t lab).follow_edge s lab = .ok t := by
  simp [add_edge, follow_edge, get_edge_ref, List.find?_cons_of_pos]

theorem follow_add_edge_other (g : AST) {s' : Nat} {lab' : Edge} (t : Nat)
    {s : Nat} {lab : Edge} (h : ¬(s' = s ∧ lab' = lab)) :
    (g.add_edge s' t lab').follow_edge s lab = g.follow_edge s lab := by
  simp only [add_edge, follow_edge, get_edge_ref]
  rw [List.find?_cons_of_neg]
  intro hc
  simp only [Bool.and_eq_true, beq_iff_eq] at hc
  exact h ⟨hc.1, hc.2⟩

theorem follow_remove_edge_of_ne {g : AST} {s : Nat} {lab : Edge} {eid : Nat}
    (h : ∀ e ∈ g.edges, e.src = s → e.lab = lab → e.eid ≠ eid) :
    (g.remove_edge eid).follow_edge s lab = g.follow_edge s lab := by
  simp only [remove_edge, follow_edge, get_edge_ref]
  rw [ListFacts.find?_filter_of_imp]
  intro e he hp
  simp only [Bool.and_eq_true, beq_iff_eq] at hp
  simp only [bne_iff_ne, ne_eq, decide_eq_true_eq]
  exact h e he hp.1 hp.2

theorem mem_edges_remove_edge {g : AST} {eid : Nat} {e : EdgeRec} :
    e ∈ (g.remove_edge eid).edges ↔ e ∈ g.edges ∧ e.eid ≠ eid := by
  simp [remove_edge, List.mem_filter]

theorem find?_eid_unique {g : AST} (hwf : g.WfE) {e : EdgeRec} (he : e ∈ g.edges) :
    g.edges.find? (fun f => f.eid == e.eid) = some e := by
  refine ListFacts.find?_eq_some_of_mem_unique he (by simp) ?_
  intro x hx hxe
  simp only [beq_iff_eq] at hxe
  by_contra hne
  exact (hwf.2.forall (fun _ _ h => (h ∘ Eq.symm)) hx he hne) hxe

theorem redirect_edge_of_found {g : AST} (hwf : g.WfE) {e : EdgeRec}
    (he : e ∈ g.edges) (b : Nat) :
    g.redirect_edge e.eid b = (g.remove_edge e.eid).add_edge e.src b e.lab := by
  unfold redirect_edge
  rw [find?_eid_unique hwf he]

/-- Behaviour of `follow_edge` under the redirect fold that `migrate_node`
performs: if the fold's list contains an `(s, wt)`-labelled edge, the first
`(s, wt)` edge afterwards is a redirected one targeting `b`; otherwise the
lookup is untouched. -/
theorem foldl_redirect_follow (b s : Nat) (wt : Edge) :
    ∀ (l : List EdgeRec) (g : AST), g.WfE →
      (∀ f ∈ l, f ∈ g.edges) →
      l.Pairwise (fun a c => a.eid ≠ c.eid) →
      (l.foldl (fun h f => h.redirect_edge f.eid b) g).follow_edge s wt =
        if l.any (fun f => f.src == s && f.lab == wt) then .ok b
        else g.follow_edge s wt := by
  intro l
  induction l with
  | nil => intro g _ _ _; simp
  | cons f fs ih =>
    intro g hwf hmem hpw
    have hf : f ∈ g.edges := hmem f (by simp)
    have hred : g.redirect_edge f.eid b = (g.remove_edge f.eid).add_edge f.src b f.lab :=
      redirect_edge_of_found hwf hf b
    have hwf' : (g.redirect_edge f.eid b).WfE := wfE_redirect_edge hwf f.eid b
    have hmem' : ∀ x ∈ fs, x ∈ (g.redirect_edge f.eid b).edges := by
      intro x hx
      have hxg := hmem x (by simp [hx])
      have hne : x.eid ≠ f.eid := ((List.pairwise_cons.1 hpw).1 x hx).symm
      rw [hred]
      simp only [add_edge, List.mem_cons]
      exact Or.inr (mem_edges_remove_edge.2 ⟨hxg, hne⟩)
    have hpw' := (List.pairwise_cons.1 hpw).2
    rw [List.foldl_cons, ih (g.redirect_edge f.eid b) hwf' hmem' hpw']
    by_cases hmatch : (f.src == s && f.lab == wt) = true
    · simp only [List.any_cons, hmatch, Bool.true_or, if_true]
      by_cases hany : fs.any (fun f => f.src == s && f.lab == wt) = true
      · rw [if_pos hany]
      · rw [if_neg hany, hred]
        simp only [Bool.and_eq_true, beq_iff_eq] at hmatch
        rw [hmatch.1, hmatch.2]
        exact follow_add_edge_self _ _ _ _
    · simp only [List.any_cons, hmatch, Bool.false_or]
      by_cases hany : fs.any (fun f => f.src == s && f.lab == wt) = true
      · rw [if_pos hany, if_pos hany]
      · rw [if_neg hany, if_neg hany, hred]
        simp only [Bool.and_eq_true, beq_iff_eq, not_and] at hmatch
        rw [follow_add_edge_other _ _ (fun hc => hmatch hc.1 hc.2)]
        refine follow_remove_edge_of_ne ?_
        intro e he hes hel
        intro heid
        have : e = f := by
          by_contra hne
          exact (hwf.2.forall (fun _ _ h => (h ∘ Eq.symm)) he hf hne) heid
        subst this
        exact hmatch hes hel

/-- `follow_edge` after `migrate_node g a b`: an `(s, wt)` lookup yields the
migration target `b` exactly when some non-`Binder` `(s, wt)` edge pointed
at `a`; every other lookup is untouched. -/
theorem migrate_node_follow {g : AST} (hwf : g.WfE) (a b s : Nat) (wt : Edge) :
    (g.migrate_node a b).follow_edge s wt =
      if (g.edges.any fun e => e.src == s && e.lab == wt && e.dst == a && !e.lab.isBinder)
      then .ok b else g.follow_edge s wt := by
  have hfold := foldl_redirect_follow b s wt (g.incomingNonBinder a) g hwf
    (fun f hf => List.mem_of_mem_filter hf)
    (hwf.2.sublist (List.filter_sublist _))
  have hroot : ∀ (h : AST),
      (if g.root == a then { h with root := b } else h).follow_edge s wt =
        h.follow_edge s wt := by
    intro h
    split <;> rfl
  have hcond : ((g.incomingNonBinder a).any fun f => f.src == s && f.lab == wt) =
      (g.edges.any fun e => e.src == s && e.lab == wt && e.dst == a && !e.lab.isBinder) := by
    simp only [incomingNonBinder, List.any_filter]
    congr 1
    funext e
    cases hd : e.dst == a <;> cases hs' : e.src == s <;> cases hl : e.lab == wt <;>
      cases hb : e.lab.isBinder <;> simp [hd, hs', hl, hb]
  unfold migrate_node
  simp only [hroot]
  rw [hfold, hcond]

theorem nodeWeight_remove_node_self (g : AST) (x : Nat) :
    (g.remove_node x).nodeWeight x = none := by
  simp only [remove_node, remove_node_get, nodeWeight]
  have hnone : (g.nodes.filter (fun p => p.1 != x)).find? (fun p => p.1 == x) = none := by
    rw [List.find?_eq_none]
    intro p hp
    have := (List.mem_filter.1 hp).2
    simp only [bne_iff_ne, ne_eq] at this
    simp only [beq_iff_eq]
    exact this
  rw [hnone]
  rfl

theorem nodeWeight_remove_node_other {g : AST} {x n : Nat} (h : n ≠ x) :
    (g.remove_node x).nodeWeight n = g.nodeWeight n := by
  simp only [remove_node, remove_node_get, nodeWeight]
  rw [ListFacts.find?_filter_of_imp]
  intro p _ hp
  simp only [beq_iff_eq] at hp
  simp only [bne_iff_ne, ne_eq, decide_eq_true_eq]
  omega

theorem edges_remove_node_not_incident (g : AST) (x : Nat) :
    ∀ e ∈ (g.remove_node x).edges, e.src ≠ x ∧ e.dst ≠ x := by
  intro e he
  have := (List.mem_filter.1 he).2
  simp only [Bool.and_eq_true, bne_iff_ne, ne_eq] at this
  exact this

theorem follow_remove_node_of_ok {g : AST} {x s : Nat} {wt : Edge} {m : Nat}
    (h : g.follow_edge s wt = .ok m) (hs : s ≠ x) (hm : m ≠ x) :
    (g.remove_node x).follow_edge s wt = .ok m := by
  obtain ⟨e, hge, hdst⟩ := follow_edge_ok_iff.1 h
  simp only [remove_node, remove_node_get, follow_edge, get_edge_ref]
  unfold get_edge_ref at hge
  rw [ListFacts.find?_filter_of_find?_eq_some hge]
  · simp [hdst]
  · obtain ⟨_, hsrc, _⟩ := get_edge_ref_props (g := g) (by unfold get_edge_ref; exact hge)
    simp only [Bool.and_eq_true, bne_iff_ne, ne_eq]
    exact ⟨by rw [hsrc]; exact hs, by rw [hdst]; exact hm⟩

theorem eid_inj {g : AST} (hwf : g.WfE) {x y : EdgeRec}
    (hx : x ∈ g.edges) (hy : y ∈ g.edges) (h : x.eid = y.eid) : x = y := by
  by_contra hne
  exact (hwf.2.forall (fun _ _ h => (h ∘ Eq.symm)) hx hy hne) h

theorem mem_edges_foldl_redirect {b : Nat} {e : EdgeRec} :
    ∀ (l : List EdgeRec) (g : AST), e ∈ g.edges → (∀ f ∈ l, f.eid ≠ e.eid) →
      e ∈ (l.foldl (fun h f => h.redirect_edge f.eid b) g).edges := by
  intro l
  induction l with
  | nil => intro g he _; exact he
  | cons f fs ih =>
    intro g he hne
    rw [List.foldl_cons]
    refine ih (g.redirect_edge f.eid b) ?_ (fun x hx => hne x (by simp [hx]))
    unfold redirect_edge
    cases g.edges.find? (fun x => x.eid == f.eid) with
    | none => exact he
    | some x =>
      simp only [add_edge, List.mem_cons]
      exact Or.inr (mem_edges_remove_edge.2 ⟨he, (hne f (by simp)).symm⟩)

theorem mem_edges_migrate_of_dst_ne {g : AST} (hwf : g.WfE) {e : EdgeRec}
    (he : e ∈ g.edges) {a : Nat} (hd : e.dst ≠ a) (b : Nat) :
    e ∈ (g.migrate_node a b).edges := by
  have key : e ∈ ((g.incomingNonBinder a).foldl
      (fun h f => h.redirect_edge f.eid b) g).edges := by
    refine mem_edges_foldl_redirect _ g he ?_
    intro f hf heq
    have hfg : f ∈ g.edges := List.mem_of_mem_filter hf
    have : f = e := eid_inj hwf hfg he heq
    subst this
    have := (List.mem_filter.1 hf).2
    simp only [Bool.and_eq_true, beq_iff_eq] at this
    exact hd this.1
  unfold migrate_node
  split <;> exact key

/-! The two outcomes of `lift_closure_chain` on a live, non-closure
`node_under_closures`. -/

theorem lift_closure_chain_closure {g : AST} (hwf : g.WfE) {c under : Nat}
    {e : EdgeRec} {wu wc : Node}
    (hwu : g.nodeWeight under = some wu) (hwuc : wu.isClosureNode = false)
    (he : g.get_edge_ref c .Parameter = some e) (hedc : e.dst ≠ c)
    (hwc : g.nodeWeight e.dst = some wc) (hwcc : wc.isClosureNode = true) :
    g.lift_closure_chain c under .Parameter =
      .ok (((g.migrate_node c e.dst).migrate_node under c).redirect_edge e.eid under) := by
  obtain ⟨hemem, hesrc, heslab⟩ := get_edge_ref_props he
  have hne_under : e.dst ≠ under := by
    intro hcontra
    rw [hcontra, hwu] at hwc
    cases hwc
    rw [hwcc] at hwuc
    cases hwuc
  have heA : e ∈ (g.migrate_node c e.dst).edges :=
    mem_edges_migrate_of_dst_ne hwf hemem hedc _
  have hwfA : (g.migrate_node c e.dst).WfE := wfE_migrate_node hwf _ _
  have heB : e ∈ ((g.migrate_node c e.dst).migrate_node under c).edges :=
    mem_edges_migrate_of_dst_ne hwfA heA hne_under _
  have hwfB : ((g.migrate_node c e.dst).migrate_node under c).WfE :=
    wfE_migrate_node hwfA _ _
  have hfind := find?_eid_unique hwfB heB
  unfold lift_closure_chain
  rw [hwu, he]
  cases wu
  all_goals try (simp [Node.isClosureNode] at hwuc)
  all_goals simp only [hwc]
  all_goals cases wc
  all_goals try (simp [Node.isClosureNode] at hwcc)
  all_goals simp only [hfind]

theorem lift_closure_chain_nonclosure {g : AST} {c under : Nat} {e : EdgeRec} {wu wc : Node}
    (hwu : g.nodeWeight under = some wu) (hwuc : wu.isClosureNode = false)
    (he : g.get_edge_ref c .Parameter = some e)
    (hwc : g.nodeWeight e.dst = some wc) (hwcc : wc.isClosureNode = false) :
    g.lift_closure_chain c under .Parameter = .ok g := by
  unfold lift_closure_chain
  rw [hwu, he]
  cases wu
  all_goals try (simp [Node.isClosureNode] at hwuc)
  all_goals simp only [hwc]
  all_goals cases wc
  all_goals try (simp [Node.isClosureNode] at hwcc)
  all_goals rfl

theorem nodeWeight_eq_of_nodes_eq {g g' : AST} (h : g'.nodes = g.nodes) (n : Nat) :
    g'.nodeWeight n = g.nodeWeight n := by
  unfold nodeWeight
  rw [h]

end AST

/-! ### The binder-uniqueness invariant and its preservation -/

/-- Node-side wellformedness: node keys are below the allocation counter. -/
def AST.WfN (g : AST) : Prop :=
  ∀ p ∈ g.nodes, p.1 < g.next_node

/-- Endpoint wellformedness: both endpoints of every edge are below the node
allocation counter. -/
def AST.WfEnd (g : AST) : Prop :=
  ∀ e ∈ g.edges, e.src < g.next_node ∧ e.dst < g.next_node

/-- Structural wellformedness of the graph representation: bounded node
keys, wellformed edge ids, bounded edge endpoints.  Every graph petgraph can
hold satisfies this, and every operation of the reducer preserves it. -/
def AST.Wf (g : AST) : Prop :=
  g.WfN ∧ g.WfE ∧ g.WfEnd

/-- Binder-edge targets: every `Binder` edge ends at a live `Lambda` or
`Closure` node (the target half of the binder-uniqueness invariant). -/
def AST.BinderTargets (g : AST) : Prop :=
  ∀ e ∈ g.edges, e.lab.isBinder = true →
    ∃ w, g.nodeWeight e.dst = some w ∧ w.isBinderNode = true

/-- Variable-side binder uniqueness: a `Binder` edge leaving a bound
variable is labelled `Binder 0`, and it is the only `Binder` edge leaving
that variable (edge identity taken by id, which `WfE` makes injective). -/
def AST.VarBinders (g : AST) : Prop :=
  ∀ e ∈ g.edges, g.nodeWeight e.src = some (.Variable .Bound) →
    e.lab.isBinder = true →
      e.lab = .Binder 0 ∧
      ∀ f ∈ g.edges, f.src = e.src → f.lab.isBinder = true → f.eid = e.eid

/-- The whole invariant carried through the reducer. -/
def AST.BinderInv (g : AST) : Prop :=
  g.Wf ∧ g.BinderTargets ∧ g.VarBinders

/-- How a reducer step may rewrite the graph: the allocation counters only
grow, and a node that is still alive afterwards kept its weight, except for
the in-place `Lambda` to `Closure` rewrite of the application arm. -/
def AST.Grows (g g' : AST) : Prop :=
  g.next_node ≤ g'.next_node ∧ g.next_edge ≤ g'.next_edge ∧
  ∀ x w', x < g.next_node → g'.nodeWeight x = some w' →
    g.nodeWeight x = some w' ∨
      ∃ s, w' = Node.Closure s ∧ g.nodeWeight x = some (.Lambda s)

/-- Conclusion of every preservation lemma: the invariant holds again and
the step only grew the graph. -/
def AST.Steps (g g' : AST) : Prop :=
  g'.BinderInv ∧ g.Grows g'

namespace AST

theorem steps_refl {g : AST} (h : g.BinderInv) : g.Steps g :=
  ⟨h, le_refl _, le_refl _, fun _ _ _ hw => Or.inl hw⟩

theorem steps_trans {g g1 g2 : AST} (h1 : g.Steps g1) (h2 : g1.Steps g2) :
    g.Steps g2 := by
  obtain ⟨_, hn1, he1, hw1⟩ := h1
  obtain ⟨hinv2, hn2, he2, hw2⟩ := h2
  refine ⟨hinv2, le_trans hn1 hn2, le_trans he1 he2, ?_⟩
  intro x w' hx hw
  rcases hw2 x w' (lt_of_lt_of_le hx hn1) hw with hmid | ⟨s, rfl, hmid⟩
  · exact hw1 x w' hx hmid
  · rcases hw1 x (.Lambda s) hx hmid with hold | ⟨t, hts, _⟩
    · exact Or.inr ⟨s, rfl, hold⟩
    · cases hts

theorem lt_next_of_weight_some {g : AST} (hn : g.WfN) {x : Nat} {w : Node}
    (h : g.nodeWeight x = some w) : x < g.next_node := by
  unfold nodeWeight at h
  cases hf : g.nodes.find? (fun p => p.1 == x) with
  | none => rw [hf] at h; cases h
  | some p =>
    have hp := List.find?_some hf
    simp only [beq_iff_eq] at hp
    have := hn p (List.mem_of_find?_eq_some hf)
    omega

theorem dst_lt_of_follow {g : AST} (hend : g.WfEnd) {s : Nat} {lab : Edge} {m : Nat}
    (h : g.follow_edge s lab = .ok m) : m < g.next_node := by
  obtain ⟨e, he, hdst⟩ := follow_edge_ok_iff.1 h
  obtain ⟨hmem, _, _⟩ := get_edge_ref_props he
  have := (hend e hmem).2
  omega

theorem src_lt_of_follow {g : AST} (hend : g.WfEnd) {s : Nat} {lab : Edge} {m : Nat}
    (h : g.follow_edge s lab = .ok m) : s < g.next_node := by
  obtain ⟨e, he, _⟩ := follow_edge_ok_iff.1 h
  obtain ⟨hmem, hsrc, _⟩ := get_edge_ref_props he
  have := (hend e hmem).1
  omega

theorem binder_target_of_follow {g : AST} (hbt : g.BinderTargets) {s : Nat}
    {i : Nat} {m : Nat} (h : g.follow_edge s (.Binder i) = .ok m) :
    ∃ w, g.nodeWeight m = some w ∧ w.isBinderNode = true := by
  obtain ⟨e, he, hdst⟩ := follow_edge_ok_iff.1 h
  obtain ⟨hmem, _, hlab⟩ := get_edge_ref_props he
  have := hbt e hmem (by rw [hlab]; rfl)
  rwa [hdst] at this

theorem nodeWeight_add_node_other {g : AST} {x : Nat} (h : x ≠ g.next_node)
    (w : Node) : (g.add_node w).1.nodeWeight x = g.nodeWeight x := by
  unfold add_node nodeWeight
  simp only [List.find?_append]
  cases hf : g.nodes.find? (fun p => p.1 == x) with
  | some p => rfl
  | none =>
    have : (g.next_node == x) = false := by
      simp only [beq_eq_false_iff_ne, ne_eq]
      omega
    simp [List.find?_cons, this]

theorem edges_add_node (g : AST) (w : Node) :
    (g.add_node w).1.edges = g.edges := rfl

theorem fresh_no_src {g : AST} (hend : g.WfEnd) (w : Node) :
    ∀ e ∈ (g.add_node w).1.edges, e.src ≠ (g.add_node w).2 := by
  intro e he
  have := (hend e he).1
  show e.src ≠ g.next_node
  omega

theorem nodeWeight_set_weight (g : AST) (x : Nat) (w : Node) (n : Nat) :
    (g.set_weight x w).nodeWeight n =
      if n = x then (g.nodeWeight n).map (fun _ => w) else g.nodeWeight n := by
  unfold set_weight nodeWeight
  rw [List.find?_map]
  have hpred : ((fun p => p.1 == n) ∘ fun p : Nat × Node =>
      if p.1 == x then (p.1, w) else p) = (fun p => p.1 == n) := by
    funext p
    by_cases hx : p.1 = x <;> simp [hx]
  rw [hpred]
  by_cases hnx : n = x
  · subst hnx
    cases hf : g.nodes.find? (fun p => p.1 == n) with
    | none => simp
    | some p =>
      have hp := List.find?_some hf
      simp only [beq_iff_eq] at hp
      simp [hp]
  · cases hf : g.nodes.find? (fun p => p.1 == n) with
    | none => simp [hnx]
    | some p =>
      have hp := List.find?_some hf
      simp only [beq_iff_eq] at hp
      rw [if_neg hnx]
      simp only [Option.map_map, Option.map, Function.comp]
      simp [hp, hnx]

theorem steps_add_node {g : AST} (h : g.BinderInv) (w : Node) :
    g.Steps (g.add_node w).1 := by
  obtain ⟨⟨hn, he, hend⟩, hbt, hvb⟩ := h
  have hwother : ∀ x, x < g.next_node →
      (g.add_node w).1.nodeWeight x = g.nodeWeight x := by
    intro x hx
    exact nodeWeight_add_node_other (by omega) w
  refine ⟨⟨⟨?_, wfE_add_node he w, ?_⟩, ?_, ?_⟩, ?_, le_refl _, ?_⟩
  · intro p hp
    simp only [add_node, List.mem_append, List.mem_singleton] at hp
    show p.1 < g.next_node + 1
    rcases hp with hp | rfl
    · have := hn p hp
      omega
    · omega
  · intro e hemem
    rw [edges_add_node] at hemem
    have := hend e hemem
    show e.src < g.next_node + 1 ∧ e.dst < g.next_node + 1
    omega
  · intro e hemem hbl
    rw [edges_add_node] at hemem
    obtain ⟨wt, hwt, hbn⟩ := hbt e hemem hbl
    have hlt : e.dst < g.next_node := (hend e hemem).2
    exact ⟨wt, by rw [hwother e.dst hlt]; exact hwt, hbn⟩
  · intro e hemem hsrc hbl
    rw [edges_add_node] at hemem
    have hlt : e.src < g.next_node := (hend e hemem).1
    rw [hwother e.src hlt] at hsrc
    obtain ⟨hl0, huniq⟩ := hvb e hemem hsrc hbl
    refine ⟨hl0, ?_⟩
    intro f hf hfs hfb
    rw [edges_add_node] at hf
    exact huniq f hf hfs hfb
  · show g.next_node ≤ g.next_node + 1
    omega
  · intro x w' hx hww
    rw [hwother x hx] at hww
    exact Or.inl hww

theorem steps_add_edge_nonbinder {g : AST} (h : g.BinderInv) {s t : Nat} {lab : Edge}
    (hs : s < g.next_node) (ht : t < g.next_node) (hlab : lab.isBinder = false) :
    g.Steps (g.add_edge s t lab) := by
  obtain ⟨⟨hn, he, hend⟩, hbt, hvb⟩ := h
  have hnodes : (g.add_edge s t lab).nodes = g.nodes := rfl
  have hw : ∀ x, (g.add_edge s t lab).nodeWeight x = g.nodeWeight x :=
    fun x => nodeWeight_eq_of_nodes_eq hnodes x
  refine ⟨⟨⟨hn, wfE_add_edge he s t lab, ?_⟩, ?_, ?_⟩, le_refl _, ?_, ?_⟩
  · intro e hemem
    simp only [add_edge, List.mem_cons] at hemem
    rcases hemem with rfl | hemem
    · exact ⟨hs, ht⟩
    · exact hend e hemem
  · intro e hemem hbl
    simp only [add_edge, List.mem_cons] at hemem
    rcases hemem with rfl | hemem
    · have hlb : lab.isBinder = true := hbl
      rw [hlab] at hlb
      cases hlb
    · obtain ⟨wt, hwt, hbn⟩ := hbt e hemem hbl
      exact ⟨wt, by rw [hw]; exact hwt, hbn⟩
  · intro e hemem hsrc hbl
    simp only [add_edge, List.mem_cons] at hemem
    rcases hemem with rfl | hemem
    · have hlb : lab.isBinder = true := hbl
      rw [hlab] at hlb
      cases hlb
    · rw [hw] at hsrc
      obtain ⟨hl0, huniq⟩ := hvb e hemem hsrc hbl
      refine ⟨hl0, ?_⟩
      intro f hf hfs hfb
      simp only [add_edge, List.mem_cons] at hf
      rcases hf with rfl | hf
      · have hlb : lab.isBinder = true := hfb
        rw [hlab] at hlb
        cases hlb
      · exact huniq f hf hfs hfb
  · show g.next_edge ≤ g.next_edge + 1
    omega
  · intro x w' hx hww
    rw [hw] at hww
    exact Or.inl hww

theorem steps_add_edge_binder {g : AST} (h : g.BinderInv) {s t : Nat} {lab : Edge}
    (hs : s < g.next_node) (ht : t < g.next_node)
    (hwt : ∃ w, g.nodeWeight t = some w ∧ w.isBinderNode = true)
    ( _hbl : lab.isBinder = true)
    (hvar : g.nodeWeight s = some (.Variable .Bound) →
      lab = .Binder 0 ∧ ∀ e ∈ g.edges, e.src = s → e.lab.isBinder = false) :
    g.Steps (g.add_edge s t lab) := by
  obtain ⟨⟨hn, he, hend⟩, hbt, hvb⟩ := h
  have hnodes : (g.add_edge s t lab).nodes = g.nodes := rfl
  have hw : ∀ x, (g.add_edge s t lab).nodeWeight x = g.nodeWeight x :=
    fun x => nodeWeight_eq_of_nodes_eq hnodes x
  refine ⟨⟨⟨hn, wfE_add_edge he s t lab, ?_⟩, ?_, ?_⟩, le_refl _, ?_, ?_⟩
  · intro e hemem
    simp only [add_edge, List.mem_cons] at hemem
    rcases hemem with rfl | hemem
    · exact ⟨hs, ht⟩
    · exact hend e hemem
  · intro e hemem hbl'
    simp only [add_edge, List.mem_cons] at hemem
    rcases hemem with rfl | hemem
    · obtain ⟨wt, hwtw, hbn⟩ := hwt
      exact ⟨wt, by rw [hw]; exact hwtw, hbn⟩
    · obtain ⟨wt, hwtw, hbn⟩ := hbt e hemem hbl'
      exact ⟨wt, by rw [hw]; exact hwtw, hbn⟩
  · intro e hemem hsrc hbl'
    simp only [add_edge, List.mem_cons] at hemem
    rcases hemem with rfl | hemem
    · rw [hw] at hsrc
      have hv := hvar hsrc
      refine ⟨hv.1, ?_⟩
      intro f hf hfs hfb
      simp only [add_edge, List.mem_cons] at hf
      rcases hf with rfl | hf
      · rfl
      · have hfs' : f.src = s := hfs
        have := hv.2 f hf hfs'
        rw [hfb] at this
        cases this
    · rw [hw] at hsrc
      obtain ⟨hl0, huniq⟩ := hvb e hemem hsrc hbl'
      refine ⟨hl0, ?_⟩
      intro f hf hfs hfb
      simp only [add_edge, List.mem_cons] at hf
      rcases hf with rfl | hf
      · have hse : s = e.src := hfs
        have hv := (hvar (by rw [hse]; exact hsrc)).2 e hemem hse.symm
        rw [hbl'] at hv
        cases hv
      · exact huniq f hf hfs hfb
  · show g.next_edge ≤ g.next_edge + 1
    omega
  · intro x w' hx hww
    rw [hw] at hww
    exact Or.inl hww

theorem steps_remove_edge {g : AST} (h : g.BinderInv) (eid : Nat) :
    g.Steps (g.remove_edge eid) := by
  obtain ⟨⟨hn, he, hend⟩, hbt, hvb⟩ := h
  have hnodes : (g.remove_edge eid).nodes = g.nodes := rfl
  have hw : ∀ x, (g.remove_edge eid).nodeWeight x = g.nodeWeight x :=
    fun x => nodeWeight_eq_of_nodes_eq hnodes x
  have hmem : ∀ e, e ∈ (g.remove_edge eid).edges → e ∈ g.edges :=
    fun e hemem => List.mem_of_mem_filter hemem
  refine ⟨⟨⟨hn, wfE_remove_edge he eid, ?_⟩, ?_, ?_⟩, le_refl _, le_refl _, ?_⟩
  · intro e hemem
    exact hend e (hmem e hemem)
  · intro e hemem hbl
    obtain ⟨wt, hwtw, hbn⟩ := hbt e (hmem e hemem) hbl
    exact ⟨wt, by rw [hw]; exact hwtw, hbn⟩
  · intro e hemem hsrc hbl
    rw [hw] at hsrc
    obtain ⟨hl0, huniq⟩ := hvb e (hmem e hemem) hsrc hbl
    exact ⟨hl0, fun f hf hfs hfb => huniq f (hmem f hf) hfs hfb⟩
  · intro x w' hx hww
    rw [hw] at hww
    exact Or.inl hww

theorem steps_remove_node {g : AST} (h : g.BinderInv) (x : Nat) :
    g.Steps (g.remove_node x) := by
  obtain ⟨⟨hn, he, hend⟩, hbt, hvb⟩ := h
  have hmem : ∀ e, e ∈ (g.remove_node x).edges → e ∈ g.edges :=
    fun e hemem => List.mem_of_mem_filter hemem
  refine ⟨⟨⟨?_, wfE_remove_node he x, ?_⟩, ?_, ?_⟩, le_refl _, le_refl _, ?_⟩
  · intro p hp
    exact hn p (List.mem_of_mem_filter hp)
  · intro e hemem
    exact hend e (hmem e hemem)
  · intro e hemem hbl
    obtain ⟨wt, hwtw, hbn⟩ := hbt e (hmem e hemem) hbl
    have hdx : e.dst ≠ x := (edges_remove_node_not_incident g x e hemem).2
    exact ⟨wt, by rw [nodeWeight_remove_node_other hdx]; exact hwtw, hbn⟩
  · intro e hemem hsrc hbl
    have hsx : e.src ≠ x := (edges_remove_node_not_incident g x e hemem).1
    rw [nodeWeight_remove_node_other hsx] at hsrc
    obtain ⟨hl0, huniq⟩ := hvb e (hmem e hemem) hsrc hbl
    exact ⟨hl0, fun f hf hfs hfb => huniq f (hmem f hf) hfs hfb⟩
  · intro x' w' hx hww
    by_cases hxx : x' = x
    · rw [hxx, nodeWeight_remove_node_self] at hww
      cases hww
    · rw [nodeWeight_remove_node_other hxx] at hww
      exact Or.inl hww

theorem steps_set_weight_closure {g : AST} (h : g.BinderInv) {x : Nat} {s : String}
    (hl : g.nodeWeight x = some (.Lambda s)) :
    g.Steps (g.set_weight x (.Closure s)) := by
  obtain ⟨⟨hn, he, hend⟩, hbt, hvb⟩ := h
  have hwc : ∀ n, (g.set_weight x (.Closure s)).nodeWeight n =
      if n = x then some (.Closure s) else g.nodeWeight n := by
    intro n
    rw [nodeWeight_set_weight]
    by_cases hnx : n = x
    · subst hnx
      rw [if_pos rfl, if_pos rfl, hl]
      rfl
    · rw [if_neg hnx, if_neg hnx]
  have hedges : (g.set_weight x (.Closure s)).edges = g.edges := rfl
  refine ⟨⟨⟨?_, he, hend⟩, ?_, ?_⟩, le_refl _, le_refl _, ?_⟩
  · intro p hp
    simp only [set_weight, List.mem_map] at hp
    obtain ⟨q, hq, rfl⟩ := hp
    have hkey : (if q.1 == x then (q.1, Node.Closure s) else q).1 = q.1 := by
      by_cases hqx : q.1 = x <;> simp [hqx]
    show (if q.1 == x then (q.1, Node.Closure s) else q).1 < g.next_node
    rw [hkey]
    exact hn q hq
  · intro e hemem hbl
    rw [hedges] at hemem
    obtain ⟨wt, hwtw, hbn⟩ := hbt e hemem hbl
    rw [hwc e.dst]
    by_cases hdx : e.dst = x
    · exact ⟨.Closure s, by rw [if_pos hdx], rfl⟩
    · exact ⟨wt, by rw [if_neg hdx]; exact hwtw, hbn⟩
  · intro e hemem hsrc hbl
    rw [hedges] at hemem
    rw [hwc e.src] at hsrc
    by_cases hsx : e.src = x
    · rw [if_pos hsx] at hsrc
      simp at hsrc
    · rw [if_neg hsx] at hsrc
      obtain ⟨hl0, huniq⟩ := hvb e hemem hsrc hbl
      refine ⟨hl0, ?_⟩
      intro f hf hfs hfb
      rw [hedges] at hf
      exact huniq f hf hfs hfb
  · intro x' w' hx hww
    rw [hwc x'] at hww
    by_cases hxx : x' = x
    · rw [if_pos hxx] at hww
      injection hww with hww
      exact Or.inr ⟨s, hww.symm, by rw [hxx]; exact hl⟩
    · rw [if_neg hxx] at hww
      exact Or.inl hww

/-- One pass of `migrate_node`'s redirect fold preserves the invariant;
`b` is the migration target.  The second conjunct — every `Binder` edge of
the result was already an edge of the base graph — is what makes each
redirected id resolve to a non-`Binder` edge. -/
theorem steps_foldl_redirect_inv {g0 : AST} (hg0 : g0.BinderInv) {b : Nat}
    (hb : b < g0.next_node) :
    ∀ (l : List EdgeRec) (g : AST), (∀ f ∈ l, f ∈ g0.edges ∧ f.lab.isBinder = false) →
      g0.Steps g → (∀ e ∈ g.edges, e.lab.isBinder = true → e ∈ g0.edges) →
      g0.Steps (l.foldl (fun h f => h.redirect_edge f.eid b) g) ∧
      (∀ e ∈ (l.foldl (fun h f => h.redirect_edge f.eid b) g).edges,
        e.lab.isBinder = true → e ∈ g0.edges) := by
  intro l
  induction l with
  | nil => intro g _ hst hbsub; exact ⟨hst, hbsub⟩
  | cons f fs ih =>
    intro g hl hst hbsub
    rw [List.foldl_cons]
    have hstep : g0.Steps (g.redirect_edge f.eid b) ∧
        (∀ e ∈ (g.redirect_edge f.eid b).edges, e.lab.isBinder = true →
          e ∈ g0.edges) := by
      cases hfind : g.edges.find? (fun e => e.eid == f.eid) with
      | none =>
        have hid : g.redirect_edge f.eid b = g := by
          unfold redirect_edge
          rw [hfind]
        rw [hid]
        exact ⟨hst, hbsub⟩
      | some x =>
        have hxmem : x ∈ g.edges := List.mem_of_find?_eq_some hfind
        have hxeid : x.eid = f.eid := by
          have := List.find?_some hfind
          simpa using this
        have hxnb : x.lab.isBinder = false := by
          by_contra hxb
          rw [Bool.not_eq_false] at hxb
          have hxg0 : x ∈ g0.edges := hbsub x hxmem hxb
          have hfg0 : f ∈ g0.edges := (hl f (by simp)).1
          have hxf : x = f := eid_inj hg0.1.2.1 hxg0 hfg0 hxeid
          rw [hxf, (hl f (by simp)).2] at hxb
          cases hxb
        have hred : g.redirect_edge f.eid b =
            (g.remove_edge x.eid).add_edge x.src b x.lab := by
          rw [← hxeid]
          exact redirect_edge_of_found hst.1.1.2.1 hxmem b
        rw [hred]
        have hrm := steps_remove_edge hst.1 x.eid
        have hadd := steps_add_edge_nonbinder hrm.1
          (s := x.src) (t := b)
          (by
            have := (hst.1.1.2.2 x hxmem).1
            show x.src < g.next_node
            exact this)
          (by
            have hle := hst.2.1
            show b < g.next_node
            omega)
          hxnb
        refine ⟨steps_trans hst (steps_trans hrm hadd), ?_⟩
        intro e hemem hbl
        simp only [add_edge, List.mem_cons] at hemem
        rcases hemem with rfl | hemem
        · rw [hxnb] at hbl
          cases hbl
        · exact hbsub e (List.mem_of_mem_filter hemem) hbl
    exact ih (g.redirect_edge f.eid b)
      (fun x hx => hl x (by simp [hx])) hstep.1 hstep.2

/-- `migrate_node` preserves the invariant and never creates a `Binder`
edge. -/
theorem steps_migrate_node {g : AST} (h : g.BinderInv) (a : Nat) {b : Nat}
    (hb : b < g.next_node) :
    g.Steps (g.migrate_node a b) ∧
      (∀ e ∈ (g.migrate_node a b).edges, e.lab.isBinder = true → e ∈ g.edges) := by
  have hfold := steps_foldl_redirect_inv h hb (g.incomingNonBinder a) g
    (fun f hf => ⟨List.mem_of_mem_filter hf, by
      have := (List.mem_filter.1 hf).2
      simp only [Bool.and_eq_true] at this
      simpa using this.2⟩)
    (steps_refl h) (fun e he _ => he)
  unfold migrate_node
  split
  · exact hfold
  · exact hfold

/-- `lift_closure_chain` preserves the invariant whenever it returns a
graph (for the non-`Binder` labels it is called with). -/
theorem steps_lift_closure_chain {g : AST} (h : g.BinderInv) {a u : Nat} {lab : Edge}
    (hlab : lab.isBinder = false) {g2 : AST}
    (hok : g.lift_closure_chain a u lab = .ok g2) : g.Steps g2 := by
  unfold lift_closure_chain at hok
  split at hok
  · cases hok
  · cases hok
  · rename_i wu hwu hnotc
    split at hok
    · cases hok
    · rename_i e hge
      split at hok
      · cases hok
      · rename_i wc hwc
        dsimp only [] at hok
        split at hok
        · cases hok
        · rename_i x hfind
          obtain ⟨hemem, hesrc, heslab⟩ := get_edge_ref_props hge
          have hda : e.dst < g.next_node := (h.1.2.2 e hemem).2
          have hsa : e.src < g.next_node := (h.1.2.2 e hemem).1
          have h1 := steps_migrate_node h a hda
          have hsa1 : a < (g.migrate_node a e.dst).next_node := by
            have := h1.1.2.1
            rw [hesrc] at hsa
            omega
          have h2 := steps_migrate_node h1.1.1 u hsa1
          have hmid := steps_trans h1.1 h2.1
          have hbsub : ∀ y ∈ ((g.migrate_node a e.dst).migrate_node u a).edges,
              y.lab.isBinder = true → y ∈ g.edges :=
            fun y hy hby => h1.2 y (h2.2 y hy hby) hby
          have hxmem : x ∈ ((g.migrate_node a e.dst).migrate_node u a).edges :=
            List.mem_of_find?_eq_some hfind
          have hxeid : x.eid = e.eid := by
            have := List.find?_some hfind
            simpa using this
          have hxnb : x.lab.isBinder = false := by
            by_contra hxb
            rw [Bool.not_eq_false] at hxb
            have hxg : x ∈ g.edges := hbsub x hxmem hxb
            have hxe : x = e := eid_inj h.1.2.1 hxg hemem hxeid
            rw [hxe, heslab, hlab] at hxb
            cases hxb
          have hred : ((g.migrate_node a e.dst).migrate_node u a).redirect_edge e.eid u =
              (((g.migrate_node a e.dst).migrate_node u a).remove_edge x.eid).add_edge
                x.src u x.lab := by
            rw [← hxeid]
            exact redirect_edge_of_found hmid.1.1.2.1 hxmem u
          have hrm := steps_remove_edge hmid.1 x.eid
          have hadd := steps_add_edge_nonbinder hrm.1
            (s := x.src) (t := u)
            (by
              have := (hmid.1.1.2.2 x hxmem).1
              show x.src < ((g.migrate_node a e.dst).migrate_node u a).next_node
              exact this)
            (by
              have hun : u < g.next_node := lt_next_of_weight_some h.1.1 hnotc
              have := hmid.2.1
              show u < ((g.migrate_node a e.dst).migrate_node u a).next_node
              omega)
            hxnb
          injection hok with hok
          rw [← hok, hred]
          exact steps_trans hmid (steps_trans hrm hadd)
      · injection hok with hok
        rw [← hok]
        exact steps_refl h

/-- `remove_closure` preserves the invariant; the returned `Parameter`
target is a node id below the allocation counter. -/
theorem steps_remove_closure {g : AST} (h : g.BinderInv) {c q : Nat} {g3 : AST}
    (hok : g.remove_closure c = some (q, g3)) :
    g.Steps g3 ∧ q < g3.next_node := by
  unfold remove_closure at hok
  split at hok
  · cases hok
  · rename_i body hbody
    split at hok
    · cases hok
    · rename_i parameter hpar
      simp only [Option.some.injEq, Prod.mk.injEq] at hok
      have hblt : body < g.next_node := dst_lt_of_follow h.1.2.2 hbody
      have hplt : parameter < g.next_node := dst_lt_of_follow h.1.2.2 hpar
      have h1 := steps_migrate_node h c hblt
      have h2 := steps_remove_node h1.1.1 c
      have hst := steps_trans h1.1 h2
      rw [← hok.1, ← hok.2]
      refine ⟨hst, ?_⟩
      have := hst.2.1
      omega

/-- The worklist realisation of `remove_subtree` preserves the invariant. -/
theorem steps_remove_subtree_go :
    ∀ (fuel : Nat) (l : List (Bool × Nat)) (g : AST), g.BinderInv →
      ∀ {out : AST}, remove_subtree_go fuel g l = some out → g.Steps out := by
  intro fuel
  induction fuel with
  | zero =>
    intro l g _ out hout
    cases hout
  | succ fuel ih =>
    intro l g hinv out hout
    match l with
    | [] =>
      simp only [remove_subtree_go, Option.some.injEq] at hout
      rw [← hout]
      exact steps_refl hinv
    | (true, n) :: rest =>
      simp only [remove_subtree_go] at hout
      exact ih _ g hinv hout
    | (false, n) :: rest =>
      simp only [remove_subtree_go] at hout
      have h1 := steps_remove_node hinv n
      exact steps_trans h1 (ih rest _ h1.1 hout)

/-- `remove_subtree` preserves the invariant. -/
theorem steps_remove_subtree {g : AST} (h : g.BinderInv) {fuel node_id : Nat}
    {out : AST} (hout : AST.remove_subtree fuel g node_id = some out) :
    g.Steps out :=
  steps_remove_subtree_go fuel [(true, node_id)] g h hout

/-- The aliasing shortcut's per-referrer redirection loop preserves the
invariant, provided the true binder is a live `Lambda`/`Closure` node. -/
theorem steps_redirect_binder_refs {ft tb : Nat} :
    ∀ (vs : List Nat) (g : AST), g.BinderInv → tb < g.next_node →
      (∃ w, g.nodeWeight tb = some w ∧ w.isBinderNode = true) →
      ∀ {out : AST}, redirect_binder_refs g ft tb vs = some out → g.Steps out := by
  intro vs
  induction vs with
  | nil =>
    intro g hinv _ _ out hout
    simp only [redirect_binder_refs, Option.some.injEq] at hout
    rw [← hout]
    exact steps_refl hinv
  | cons v vs ih =>
    intro g hinv htb hwtb out hout
    simp only [redirect_binder_refs] at hout
    split at hout
    · cases hout
    · rename_i e hfind
      have hemem : e ∈ g.edges := List.mem_of_find?_eq_some hfind
      have hprops := List.find?_some hfind
      simp only [Bool.and_eq_true, beq_iff_eq] at hprops
      have hesrc : e.src = v := hprops.1
      have hvlt : v < g.next_node := by
        have := (hinv.1.2.2 e hemem).1
        omega
      have hrm := steps_remove_edge hinv e.eid
      have hnodesrm : (g.remove_edge e.eid).nodes = g.nodes := rfl
      have hadd : (g.remove_edge e.eid).Steps
          ((g.remove_edge e.eid).add_edge v tb e.lab) := by
        by_cases hbl : e.lab.isBinder = true
        · refine steps_add_edge_binder hrm.1 hvlt htb ?_ hbl ?_
          · obtain ⟨w, hwg, hbn⟩ := hwtb
            exact ⟨w, by rw [nodeWeight_eq_of_nodes_eq hnodesrm]; exact hwg, hbn⟩
          · intro hsrcvar
            rw [nodeWeight_eq_of_nodes_eq hnodesrm] at hsrcvar
            have hsrcvar' : g.nodeWeight e.src = some (.Variable .Bound) := by
              rw [hesrc]; exact hsrcvar
            obtain ⟨hl0, huniq⟩ := hinv.2.2 e hemem hsrcvar' hbl
            refine ⟨hl0, ?_⟩
            intro f hf hfs
            have hfmem := mem_edges_remove_edge.1 hf
            by_contra hfb
            rw [Bool.not_eq_false] at hfb
            exact hfmem.2 (huniq f hfmem.1 (by rw [hfs, hesrc]) hfb)
        · rw [Bool.not_eq_true] at hbl
          exact steps_add_edge_nonbinder hrm.1 hvlt htb hbl
      have hstep := steps_trans hrm hadd
      refine steps_trans hstep (ih _ hstep.1 ?_ ?_ hout)
      · have := hstep.2.1
        omega
      · obtain ⟨w, hwg, hbn⟩ := hwtb
        refine ⟨w, ?_, hbn⟩
        have hn2 : ((g.remove_edge e.eid).add_edge v tb e.lab).nodes = g.nodes := rfl
        rw [nodeWeight_eq_of_nodes_eq hn2]
        exact hwg

/-- `add_church` preserves the invariant; the returned node is live. -/
theorem steps_add_church {g : AST} (h : g.BinderInv) (b : Bool) :
    g.Steps (g.add_church b).1 ∧ (g.add_church b).2 < (g.add_church b).1.next_node := by
  have h1 := steps_add_node h (.Lambda "x")
  have h2 := steps_add_node h1.1 (.Lambda "y")
  have h12 := steps_trans h1 h2
  have h3 := steps_add_node h12.1 (.Variable .Bound)
  have h13 := steps_trans h12 h3
  set g1 := (g.add_node (.Lambda "x")).1 with hg1
  set g2 := (g1.add_node (.Lambda "y")).1 with hg2
  set g3 := (g2.add_node (.Variable .Bound)).1 with hg3
  have hnn1 : g1.next_node = g.next_node + 1 := rfl
  have hnn2 : g2.next_node = g.next_node + 2 := rfl
  have hnn3 : g3.next_node = g.next_node + 3 := rfl
  have hlx : g.next_node < g3.next_node := by omega
  have hly : g.next_node + 1 < g3.next_node := by omega
  have hv : g.next_node + 2 < g3.next_node := by omega
  have h4 := steps_add_edge_nonbinder h13.1 (s := g.next_node) (t := g.next_node + 1)
    hlx hly (show Edge.isBinder .Body = false from rfl)
  have h14 := steps_trans h13 h4
  set g4 := g3.add_edge g.next_node (g.next_node + 1) .Body with hg4
  have hnn4 : g4.next_node = g.next_node + 3 := rfl
  have h5 := steps_add_edge_nonbinder h14.1 (s := g.next_node + 1)
    (t := g.next_node + 2) (by omega) (by omega)
    (show Edge.isBinder .Body = false from rfl)
  have h15 := steps_trans h14 h5
  set g5 := g4.add_edge (g.next_node + 1) (g.next_node + 2) .Body with hg5
  have hnn5 : g5.next_node = g.next_node + 3 := rfl
  -- the weight of the chosen lambda in g5
  have hwlx : g5.nodeWeight g.next_node = some (.Lambda "x") := by
    have e1 : g1.nodeWeight g.next_node = some (.Lambda "x") :=
      nodeWeight_add_node_self g _ h.1.1
    have e2 : g2.nodeWeight g.next_node = some (.Lambda "x") := by
      rw [hg2, nodeWeight_add_node_other (by rw [hnn1]; omega)]
      exact e1
    have e3 : g3.nodeWeight g.next_node = some (.Lambda "x") := by
      rw [hg3, nodeWeight_add_node_other (by rw [hnn2]; omega)]
      exact e2
    have e5 : g5.nodes = g3.nodes := rfl
    rw [nodeWeight_eq_of_nodes_eq e5]
    exact e3
  have hwly : g5.nodeWeight (g.next_node + 1) = some (.Lambda "y") := by
    have e2 : g2.nodeWeight (g.next_node + 1) = some (.Lambda "y") := by
      rw [hg2]
      have : g1.next_node = g.next_node + 1 := rfl
      rw [show g.next_node + 1 = g1.next_node from this.symm]
      exact nodeWeight_add_node_self g1 _ h1.1.1.1
    have e3 : g3.nodeWeight (g.next_node + 1) = some (.Lambda "y") := by
      rw [hg3, nodeWeight_add_node_other (by rw [hnn2]; omega)]
      exact e2
    have e5 : g5.nodes = g3.nodes := rfl
    rw [nodeWeight_eq_of_nodes_eq e5]
    exact e3
  have h6 : g5.Steps (g5.add_edge (g.next_node + 2)
      (if b then g.next_node else g.next_node + 1) (.Binder 0)) := by
    refine steps_add_edge_binder h15.1 (by omega)
      (by cases b <;> simp <;> omega) ?_ rfl ?_
    · cases b
      · simp only [if_neg Bool.false_ne_true]
        exact ⟨.Lambda "y", hwly, rfl⟩
      · simp only [if_pos rfl]
        exact ⟨.Lambda "x", hwlx, rfl⟩
    · intro _
      refine ⟨rfl, ?_⟩
      intro e hemem hsrc
      exfalso
      have hb5 : e.src < g.next_node + 2 := by
        have hmem5 : e ∈ g5.edges := hemem
        simp only [hg5, hg4, add_edge, List.mem_cons] at hmem5
        rcases hmem5 with rfl | hmem5
        · simp at hsrc
        · rcases hmem5 with rfl | hmem5
          · simp at hsrc
          · have := (h.1.2.2 e hmem5).1
            omega
      omega
  have hfinal := steps_trans h15 h6
  constructor
  · exact hfinal
  · show g.next_node < g.next_node + 3
    omega

/-- The edge-copying fold of `clone_subtree` maps `none` to `none`. -/
theorem clone_foldl_none {fuel cloned : Nat} {rm : List (Nat × Nat)} :
    ∀ (ts : List (Nat × Edge)),
      (ts.foldl
        (fun (acc : Option AST) (te : Nat × Edge) =>
          match acc with
          | none => none
          | some h =>
            match te.2 with
            | .Binder _ =>
              some (h.add_edge cloned
                (((rm.find? (fun p => p.1 == te.1)).map (·.2)).getD te.1) te.2)
            | _ =>
              match clone_subtree fuel h te.1 rm with
              | none => none
              | some ht => some (ht.1.add_edge cloned ht.2 te.2))
        none) = none := by
  intro ts
  induction ts with
  | nil => rfl
  | cons te ts ih => exact ih

/-- The edge-copying fold of `clone_subtree` preserves the invariant, given
the contract of the recursive calls at the current fuel (`hcf`).  `g` is
the graph at entry of the enclosing clone level, `cloned` the fresh copy
(`= g.next_node`), `w` its weight, `rm` the remap list the level passes
down. -/
theorem steps_clone_fold {g : AST} {fuel cloned : Nat} {rm : List (Nat × Nat)}
    {w : Node}
    (hcf : ∀ (h : AST) (nid : Nat) {res : AST × Nat}, h.BinderInv →
      (∀ p ∈ rm, p.2 < h.next_node ∧
        ∃ wp, h.nodeWeight p.2 = some wp ∧ wp.isBinderNode = true) →
      clone_subtree fuel h nid rm = some res →
      h.Steps res.1 ∧ h.next_node ≤ res.2 ∧ res.2 < res.1.next_node ∧
      (∀ x w', h.nodeWeight x = some w' → res.1.nodeWeight x = some w') ∧
      (∀ e ∈ res.1.edges, e ∈ h.edges ∨ h.next_node ≤ e.src))
    (hcl : cloned = g.next_node) :
    ∀ (ts : List (Nat × Edge)) (h0 : AST),
      (∀ te ∈ ts, te.1 < g.next_node ∧
        (te.2.isBinder = true →
          ∃ wp, g.nodeWeight te.1 = some wp ∧ wp.isBinderNode = true) ∧
        (te.2.isBinder = true → w = .Variable .Bound → te.2 = .Binder 0)) →
      g.Steps h0 →
      (∀ x w', g.nodeWeight x = some w' → h0.nodeWeight x = some w') →
      h0.nodeWeight cloned = some w →
      g.next_node < h0.next_node →
      (∀ e ∈ h0.edges, e ∈ g.edges ∨ g.next_node ≤ e.src) →
      (∀ p ∈ rm, p.2 < h0.next_node ∧
        ∃ wp, h0.nodeWeight p.2 = some wp ∧ wp.isBinderNode = true) →
      (w = .Variable .Bound →
        ((∀ e ∈ h0.edges, e.src = cloned → e.lab.isBinder = false) ∧
          ts.Pairwise (fun a b => a.2.isBinder = false ∨ b.2.isBinder = false)) ∨
        (∀ te ∈ ts, te.2.isBinder = false)) →
      ∀ {g2 : AST},
        (ts.foldl
          (fun (acc : Option AST) (te : Nat × Edge) =>
            match acc with
            | none => none
            | some h =>
              match te.2 with
              | .Binder _ =>
                some (h.add_edge cloned
                  (((rm.find? (fun p => p.1 == te.1)).map (·.2)).getD te.1) te.2)
              | _ =>
                match clone_subtree fuel h te.1 rm with
                | none => none
                | some ht => some (ht.1.add_edge cloned ht.2 te.2))
          (some h0)) = some g2 →
        g.Steps g2 ∧ (∀ x w', g.nodeWeight x = some w' → g2.nodeWeight x = some w') ∧
        g.next_node < g2.next_node ∧
        (∀ e ∈ g2.edges, e ∈ g.edges ∨ g.next_node ≤ e.src) := by
  intro ts
  induction ts with
  | nil =>
    intro h0 _ hst hpres hwcl hnext hsrcb _ _ g2 hfold
    simp only [List.foldl_nil, Option.some.injEq] at hfold
    rw [← hfold]
    exact ⟨hst, hpres, hnext, hsrcb⟩
  | cons te ts ih =>
    intro h0 hts hst hpres hwcl hnext hsrcb hrm hvar g2 hfold
    rw [List.foldl_cons] at hfold
    obtain ⟨td, tl⟩ := te
    have htd := hts (td, tl) (by simp)
    -- a general continuation for the non-`Binder` labels
    have hnonb : ∀ (lab : Edge), lab.isBinder = false →
        (ts.foldl
          (fun (acc : Option AST) (te : Nat × Edge) =>
            match acc with
            | none => none
            | some h =>
              match te.2 with
              | .Binder _ =>
                some (h.add_edge cloned
                  (((rm.find? (fun p => p.1 == te.1)).map (·.2)).getD te.1) te.2)
              | _ =>
                match clone_subtree fuel h te.1 rm with
                | none => none
                | some ht => some (ht.1.add_edge cloned ht.2 te.2))
          (match clone_subtree fuel h0 td rm with
            | none => none
            | some ht => some (ht.1.add_edge cloned ht.2 lab))) = some g2 →
        g.Steps g2 ∧ (∀ x w', g.nodeWeight x = some w' → g2.nodeWeight x = some w') ∧
        g.next_node < g2.next_node ∧
        (∀ e ∈ g2.edges, e ∈ g.edges ∨ g.next_node ≤ e.src) := by
      intro lab hlabnb hfold'
      cases hcall : clone_subtree fuel h0 td rm with
      | none =>
        rw [hcall] at hfold'
        rw [clone_foldl_none] at hfold'
        cases hfold'
      | some ht =>
        rw [hcall] at hfold'
        obtain ⟨hcst, hcle, hclt, hcpres, hcsrc⟩ := hcf h0 td hst.1 hrm hcall
        have hstep := steps_add_edge_nonbinder hcst.1
          (s := cloned) (t := ht.2)
          (by
            have := hcst.2.1
            omega)
          hclt hlabnb
        have hst2 : g.Steps (ht.1.add_edge cloned ht.2 lab) :=
          steps_trans hst (steps_trans hcst hstep)
        have hn2 : (ht.1.add_edge cloned ht.2 lab).nodes = ht.1.nodes := rfl
        have hnn2 : (ht.1.add_edge cloned ht.2 lab).next_node = ht.1.next_node := rfl
        refine ih (ht.1.add_edge cloned ht.2 lab)
          (fun x hx => hts x (by simp [hx])) hst2 ?_ ?_ ?_ ?_ ?_ ?_ hfold'
        · intro x w' hxw
          rw [nodeWeight_eq_of_nodes_eq hn2]
          exact hcpres x w' (hpres x w' hxw)
        · rw [nodeWeight_eq_of_nodes_eq hn2]
          exact hcpres cloned w hwcl
        · rw [hnn2]
          have := hcst.2.1
          omega
        · intro e hemem
          simp only [add_edge, List.mem_cons] at hemem
          rcases hemem with rfl | hemem
          · right
            rw [hcl]
          · rcases hcsrc e hemem with hh0 | hge
            · exact hsrcb e hh0
            · right
              omega
        · intro p hp
          obtain ⟨hplt, wp, hwp, hbn⟩ := hrm p hp
          refine ⟨by rw [hnn2]; have := hcst.2.1; omega, wp, ?_, hbn⟩
          rw [nodeWeight_eq_of_nodes_eq hn2]
          exact hcpres p.2 wp hwp
        · intro hwv
          rcases hvar hwv with ⟨hnob, hpw⟩ | hall
          · left
            refine ⟨?_, (List.pairwise_cons.1 hpw).2⟩
            intro e hemem hesrc
            simp only [add_edge, List.mem_cons] at hemem
            rcases hemem with rfl | hemem
            · exact hlabnb
            · rcases hcsrc e hemem with hh0 | hge
              · exact hnob e hh0 hesrc
              · exfalso
                rw [hesrc, hcl] at hge
                omega
          · right
            exact fun x hx => hall x (by simp [hx])
    cases tl with
    | Binder i =>
      -- the copied Binder edge, remapped through `rm`
      dsimp only [] at hfold
      have htarget :
          ((((rm.find? (fun p => p.1 == td)).map (·.2)).getD td) < h0.next_node) ∧
          ∃ wp, h0.nodeWeight
              (((rm.find? (fun p => p.1 == td)).map (·.2)).getD td) = some wp ∧
            wp.isBinderNode = true := by
        cases hfind : rm.find? (fun p => p.1 == td) with
        | none =>
          show td < h0.next_node ∧
            ∃ wp, h0.nodeWeight td = some wp ∧ wp.isBinderNode = true
          obtain ⟨hlt, hbw, _⟩ := htd
          obtain ⟨wp, hwp, hbn⟩ := hbw rfl
          exact ⟨by omega, wp, hpres td wp hwp, hbn⟩
        | some p =>
          show p.2 < h0.next_node ∧
            ∃ wp, h0.nodeWeight p.2 = some wp ∧ wp.isBinderNode = true
          exact hrm p (List.mem_of_find?_eq_some hfind)
      have hstep : h0.Steps (h0.add_edge cloned
          (((rm.find? (fun p => p.1 == td)).map (·.2)).getD td) (.Binder i)) := by
        refine steps_add_edge_binder hst.1 (by omega) htarget.1 htarget.2 rfl ?_
        intro hsrcvar
        rw [hwcl] at hsrcvar
        injection hsrcvar with hsrcvar
        rcases hvar hsrcvar with ⟨hnob, hpw⟩ | hall
        · exact ⟨htd.2.2 rfl hsrcvar, hnob⟩
        · have := hall (td, .Binder i) (by simp)
          cases this
      have hst1 := steps_trans hst hstep
      set h1 := h0.add_edge cloned
        (((rm.find? (fun p => p.1 == td)).map (·.2)).getD td) (.Binder i) with hh1
      have hn1 : h1.nodes = h0.nodes := rfl
      refine ih h1 (fun x hx => hts x (by simp [hx])) hst1 ?_ ?_ ?_ ?_ ?_ ?_ hfold
      · intro x w' hxw
        rw [nodeWeight_eq_of_nodes_eq hn1]
        exact hpres x w' hxw
      · rw [nodeWeight_eq_of_nodes_eq hn1]
        exact hwcl
      · exact hnext
      · intro e hemem
        rw [hh1] at hemem
        simp only [add_edge, List.mem_cons] at hemem
        rcases hemem with rfl | hemem
        · right
          rw [hcl]
        · exact hsrcb e hemem
      · intro p hp
        obtain ⟨hplt, wp, hwp, hbn⟩ := hrm p hp
        refine ⟨hplt, wp, ?_, hbn⟩
        rw [nodeWeight_eq_of_nodes_eq hn1]
        exact hwp
      · intro hwv
        right
        rcases hvar hwv with ⟨hnob, hpw⟩ | hall
        · intro x hx
          have hrel := (List.pairwise_cons.1 hpw).1 x hx
          rcases hrel with hfalse | hxnb
          · cases hfalse
          · exact hxnb
        · exact fun x hx => hall x (by simp [hx])
    | Body =>
      dsimp only [] at hfold
      exact hnonb .Body rfl hfold
    | Parameter =>
      dsimp only [] at hfold
      exact hnonb .Parameter rfl hfold
    | Function =>
      dsimp only [] at hfold
      exact hnonb .Function rfl hfold
    | ConstructorArgument i =>
      dsimp only [] at hfold
      exact hnonb (.ConstructorArgument i) rfl hfold
    | Debug =>
      dsimp only [] at hfold
      exact hnonb .Debug rfl hfold

/-- `clone_subtree` preserves the invariant: it only adds nodes and edges,
every old weight survives, every new edge leaves a new node, and the clone
is the node allocated at the old mark. -/
theorem steps_clone_subtree :
    ∀ (fuel : Nat) (g : AST) (node_id : Nat) (rm : List (Nat × Nat))
      {out : AST × Nat},
      g.BinderInv →
      (∀ p ∈ rm, p.2 < g.next_node ∧
        ∃ wp, g.nodeWeight p.2 = some wp ∧ wp.isBinderNode = true) →
      clone_subtree fuel g node_id rm = some out →
      g.Steps out.1 ∧ g.next_node ≤ out.2 ∧ out.2 < out.1.next_node ∧
      (∀ x w', g.nodeWeight x = some w' → out.1.nodeWeight x = some w') ∧
      (∀ e ∈ out.1.edges, e ∈ g.edges ∨ g.next_node ≤ e.src) := by
  intro fuel
  induction fuel with
  | zero =>
    intro g node_id rm out _ _ hclone
    cases hclone
  | succ fuel ihf =>
    intro g node_id rm out hinv hrm hclone
    rw [clone_subtree] at hclone
    split at hclone
    · cases hclone
    · rename_i w hw
      dsimp only [] at hclone
      split at hclone
      · cases hclone
      · rename_i g2 hfold
        cases hclone
        have hwn : g.nodeWeight node_id = some w := hw
        have hstep0 := steps_add_node hinv w
        have hpres0 : ∀ x w', g.nodeWeight x = some w' →
            (g.add_node w).1.nodeWeight x = some w' := by
          intro x w' hxw
          have hlt := lt_next_of_weight_some hinv.1.1 hxw
          rw [nodeWeight_add_node_other (by omega) w]
          exact hxw
        have hwcl0 : (g.add_node w).1.nodeWeight (g.add_node w).2 = some w :=
          nodeWeight_add_node_self g w hinv.1.1
        have hnext0 : g.next_node < (g.add_node w).1.next_node := by
          show g.next_node < g.next_node + 1
          omega
        have hsrcb0 : ∀ e ∈ (g.add_node w).1.edges,
            e ∈ g.edges ∨ g.next_node ≤ e.src :=
          fun e he => Or.inl he
        have hrm0 : ∀ p ∈ (if w.isBinderNode then
              (node_id, (g.add_node w).2) :: rm else rm),
            p.2 < (g.add_node w).1.next_node ∧
            ∃ wp, (g.add_node w).1.nodeWeight p.2 = some wp ∧
              wp.isBinderNode = true := by
          intro p hp
          by_cases hwb : w.isBinderNode = true
          · rw [if_pos hwb] at hp
            rcases List.mem_cons.1 hp with rfl | hp
            · exact ⟨hnext0, w, hwcl0, hwb⟩
            · obtain ⟨hlt, wp, hwp, hbn⟩ := hrm p hp
              exact ⟨by show p.2 < g.next_node + 1; omega, wp,
                hpres0 p.2 wp hwp, hbn⟩
          · rw [if_neg hwb] at hp
            obtain ⟨hlt, wp, hwp, hbn⟩ := hrm p hp
            exact ⟨by show p.2 < g.next_node + 1; omega, wp,
              hpres0 p.2 wp hwp, hbn⟩
        have hts0 : ∀ te ∈ (g.outgoing node_id).map (fun e => (e.dst, e.lab)),
            te.1 < g.next_node ∧
            (te.2.isBinder = true →
              ∃ wp, g.nodeWeight te.1 = some wp ∧ wp.isBinderNode = true) ∧
            (te.2.isBinder = true → w = .Variable .Bound →
              te.2 = .Binder 0) := by
          intro te hte
          simp only [List.mem_map] at hte
          obtain ⟨e, he, rfl⟩ := hte
          have hemem : e ∈ g.edges := List.mem_of_mem_filter he
          have hesrc : e.src = node_id := by
            have := (List.mem_filter.1 he).2
            simpa using this
          refine ⟨(hinv.1.2.2 e hemem).2, ?_, ?_⟩
          · intro hbl
            exact hinv.2.1 e hemem hbl
          · intro hbl hwv
            have hv : g.nodeWeight e.src = some (.Variable .Bound) := by
              rw [hesrc, hwn, hwv]
            exact (hinv.2.2 e hemem hv hbl).1
        have hvar0 : w = .Variable .Bound →
            ((∀ e ∈ (g.add_node w).1.edges, e.src = (g.add_node w).2 →
                e.lab.isBinder = false) ∧
              ((g.outgoing node_id).map (fun e => (e.dst, e.lab))).Pairwise
                (fun a b => a.2.isBinder = false ∨ b.2.isBinder = false)) ∨
            (∀ te ∈ (g.outgoing node_id).map (fun e => (e.dst, e.lab)),
              te.2.isBinder = false) := by
          intro hwv
          left
          constructor
          · intro e hemem hesrc
            exfalso
            exact fresh_no_src hinv.1.2.2 w e hemem hesrc
          · have hpw : (g.outgoing node_id).Pairwise (fun a b => a.eid ≠ b.eid) :=
              hinv.1.2.1.2.sublist (List.filter_sublist _)
            have hpw2 : (g.outgoing node_id).Pairwise
                (fun a b => a.lab.isBinder = false ∨ b.lab.isBinder = false) := by
              refine hpw.imp_of_mem ?_
              intro a b ha hb hne
              by_cases hab : a.lab.isBinder = true
              · by_cases hbb : b.lab.isBinder = true
                · exfalso
                  have hamem : a ∈ g.edges := List.mem_of_mem_filter ha
                  have hbmem : b ∈ g.edges := List.mem_of_mem_filter hb
                  have hasrc : a.src = node_id := by
                    have := (List.mem_filter.1 ha).2
                    simpa using this
                  have hbsrc : b.src = node_id := by
                    have := (List.mem_filter.1 hb).2
                    simpa using this
                  have hav : g.nodeWeight a.src = some (.Variable .Bound) := by
                    rw [hasrc, hwn, hwv]
                  have heq := (hinv.2.2 a hamem hav hab).2 b hbmem
                    (by rw [hbsrc, hasrc]) hbb
                  exact hne heq.symm
                · right
                  rwa [Bool.not_eq_true] at hbb
              · left
                rwa [Bool.not_eq_true] at hab
            exact hpw2.map _ (fun a b hr => hr)
        have hcf : ∀ (h : AST) (nid : Nat) {res : AST × Nat}, h.BinderInv →
            (∀ p ∈ (if w.isBinderNode then
                (node_id, (g.add_node w).2) :: rm else rm),
              p.2 < h.next_node ∧
              ∃ wp, h.nodeWeight p.2 = some wp ∧ wp.isBinderNode = true) →
            clone_subtree fuel h nid
              (if w.isBinderNode then
                (node_id, (g.add_node w).2) :: rm else rm) = some res →
            h.Steps res.1 ∧ h.next_node ≤ res.2 ∧ res.2 < res.1.next_node ∧
            (∀ x w', h.nodeWeight x = some w' → res.1.nodeWeight x = some w') ∧
            (∀ e ∈ res.1.edges, e ∈ h.edges ∨ h.next_node ≤ e.src) := by
          intro h nid res hi hr hc
          exact ihf h nid _ hi hr hc
        have hmain := steps_clone_fold hcf rfl _ _
          hts0 hstep0 hpres0 hwcl0 hnext0 hsrcb0 hrm0 hvar0 hfold
        refine ⟨hmain.1, ?_, ?_, hmain.2.1, hmain.2.2.2⟩
        · show g.next_node ≤ g.next_node
          exact le_refl _
        · show g.next_node < g2.next_node
          exact hmain.2.2.1

end AST

/-- Membership is invariant under `insertByKey`. -/
theorem mem_insertByKey {k : EdgeRec → Nat} {e x : EdgeRec} :
    ∀ {l : List EdgeRec}, x ∈ insertByKey k e l ↔ x = e ∨ x ∈ l := by
  intro l
  induction l with
  | nil => simp [insertByKey]
  | cons a l ih =>
    simp only [insertByKey]
    split
    · simp [List.mem_cons]
    · simp only [List.mem_cons, ih]
      tauto

/-- Membership is invariant under `sortByKey`. -/
theorem mem_sortByKey {k : EdgeRec → Nat} {x : EdgeRec} :
    ∀ {l : List EdgeRec}, x ∈ sortByKey k l ↔ x ∈ l := by
  intro l
  induction l with
  | nil => simp [sortByKey]
  | cons a l ih => simp [sortByKey, mem_insertByKey, ih]

/-- Every binder `get_binders` returns is the target of a `Binder` edge
leaving the data node. -/
theorem get_binders_mem {g : AST} {id : Nat} {bs : List Nat}
    (h : ConstructorTag.get_binders g id = some bs) :
    ∀ c ∈ bs, ∃ e ∈ g.edges, e.src = id ∧ e.dst = c ∧ e.lab.isBinder = true := by
  unfold ConstructorTag.get_binders at h
  dsimp only [] at h
  split at h
  · rename_i hall
    simp only [Option.some.injEq] at h
    subst h
    intro c hc
    simp only [List.mem_map] at hc
    obtain ⟨e, he, rfl⟩ := hc
    rw [mem_sortByKey] at he
    have hout := List.mem_filter.1 he
    refine ⟨e, hout.1, by simpa using hout.2, rfl, ?_⟩
    exact List.all_eq_true.1 hall e he
  · cases h

open AST

/-- Outcome-indexed preservation: the `ok` payload satisfies `P`, an error
carries a stepped graph, divergence claims nothing. -/
def ROkP {α : Type} (g : AST) (P : α → Prop) : EvalR α → Prop
  | .ok a => P a
  | .err _ gA => g.Steps gA
  | .div => True

theorem ROkP.mono {α : Type} {g g3 : AST} {Q P : α → Prop} {r : EvalR α}
    (hst : g.Steps g3) (h : ROkP g3 Q r) (himp : ∀ a, Q a → P a) : ROkP g P r := by
  cases r with
  | ok a => exact himp a h
  | err e gA => exact steps_trans hst h
  | div => trivial

/-- The preservation contract of an evaluator: any call on an invariant
graph returns a stepped graph (successfully or in an error). -/
def EvSteps (ev : AST → Nat → EvalR (Nat × AST)) : Prop :=
  ∀ (g : AST) (n : Nat), g.BinderInv → ROkP g (fun rg => g.Steps rg.2) (ev g n)

/-- The `Match` walking loop never changes the graph it reports an error
with. -/
theorem match_walk_err :
    ∀ (fuel : Nat) (g : AST) (c : Nat) {e : ASTError} {gA : AST},
      match_walk_constructor fuel g c = .err e gA → gA = g := by
  intro fuel
  induction fuel with
  | zero =>
    intro g c e gA h
    cases h
  | succ fuel ih =>
    intro g c e gA h
    rw [match_walk_constructor] at h
    split at h
    · cases h
    · split at h
      · cases h
        rfl
      · exact ih g _ h
    · split at h
      · cases h
        rfl
      · exact ih g _ h
    · split at h
      · cases h
        rfl
      · exact ih g _ h
    · cases h
    · cases h
    · cases h

/-- `skip_throughT` satisfies the preservation contract. -/
theorem steps_skipT {ev : AST → Nat → EvalR (Nat × AST)} (hev : EvSteps ev)
    (rsfuel : Nat) {g : AST} (hinv : g.BinderInv) (node_id ft pt : Nat) :
    ROkP g (fun rg => g.Steps rg.2) (skip_throughT ev rsfuel g node_id ft pt) := by
  unfold skip_throughT
  split
  · exact steps_refl hinv
  · rename_i body hbody
    dsimp only []
    split
    · trivial
    · rename_i g3 hrs
      have hblt : body < g.next_node := dst_lt_of_follow hinv.1.2.2 hbody
      have h1 := steps_migrate_node hinv node_id hblt
      have h2 := steps_remove_node h1.1.1 node_id
      have h12 := steps_trans h1.1 h2
      have h3 := steps_remove_node h12.1 ft
      have h13 := steps_trans h12 h3
      have h4 := steps_remove_subtree h13.1 hrs
      have h14 := steps_trans h13 h4
      exact (hev g3 body h14.1).mono h14 (fun a ha => steps_trans h14 ha)

/-- `lift_closure_chain` reports errors with its input graph. -/
theorem lift_err {g : AST} {a u : Nat} {lab : Edge} {e : ASTError} {gA : AST}
    (h : g.lift_closure_chain a u lab = .err e gA) : gA = g := by
  unfold lift_closure_chain at h
  split at h
  · cases h
  · cases h
  · split at h
    · cases h
      rfl
    · split at h
      · cases h
      · dsimp only [] at h
        split at h
        · cases h
        · cases h
      · cases h

/-- `evaluate_closure_parameterT` satisfies the contract; the returned
parameter is a live-range node id. -/
theorem steps_ecpT {ev : AST → Nat → EvalR (Nat × AST)} (hev : EvSteps ev)
    {g : AST} (hinv : g.BinderInv) (c : Nat) :
    ROkP g (fun out => g.Steps out.2.2 ∧ out.1 < out.2.2.next_node)
      (evaluate_closure_parameterT ev g c) := by
  unfold evaluate_closure_parameterT
  split
  · exact steps_refl hinv
  · rename_i t0 ht0
    have hev1 := hev g t0 hinv
    split
    · trivial
    · rename_i e gA hcall
      rw [hcall] at hev1
      exact hev1
    · rename_i under g1 hcall
      rw [hcall] at hev1
      have hst1 : g.Steps g1 := hev1
      dsimp only []
      split
      · trivial
      · rename_i e gA hlift
        show g.Steps gA
        rw [lift_err hlift]
        exact hst1
      · rename_i g2 hlift
        have hst2 : g.Steps g2 := steps_trans hst1
          (steps_lift_closure_chain hst1.1
            (show Edge.isBinder .Parameter = false from rfl) hlift)
        split
        · split
          · exact hst2
          · rename_i p hp
            exact ⟨hst2, dst_lt_of_follow hst2.1.1.2.2 hp⟩
        · split
          · trivial
          · rename_i q g3 hrc
            have h3 := steps_remove_closure hst2.1 hrc
            exact ⟨steps_trans hst2 h3.1, h3.2⟩

/-- `extract_primitive_from_environmentT` satisfies the contract. -/
theorem steps_extractT {ev : AST → Nat → EvalR (Nat × AST)} (hev : EvSteps ev)
    {g : AST} (hinv : g.BinderInv) (c : Nat) :
    ROkP g (fun out => g.Steps out.2)
      (extract_primitive_from_environmentT ev g c) := by
  unfold extract_primitive_from_environmentT
  have hecp := steps_ecpT hev hinv c
  split
  · trivial
  · rename_i e gA hcall
    rw [hcall] at hecp
    exact hecp
  · rename_i parameter dang g1 hcall
    rw [hcall] at hecp
    have hst1 : g.Steps g1 := hecp.1
    dsimp only []
    cases dang with
    | true =>
      split
      · exact steps_trans hst1 (steps_remove_node hst1.1 parameter)
      · exact steps_trans hst1 (steps_remove_node hst1.1 parameter)
    | false =>
      split
      · exact hst1
      · exact hst1

/-- One argument fetch of the arithmetic builtin satisfies the contract. -/
theorem steps_fetchT {ev : AST → Nat → EvalR (Nat × AST)} (hev : EvSteps ev)
    {g : AST} (hinv : g.BinderInv) (id idx : Nat) :
    ROkP g (fun out => g.Steps out.2) (arithmetic_fetchT ev g id idx) := by
  unfold arithmetic_fetchT
  split
  · exact steps_refl hinv
  · rename_i t ht
    have hev1 := hev g t hinv
    split
    · trivial
    · rename_i e gA hcall
      rw [hcall] at hev1
      exact hev1
    · rename_i r1 g1 hcall
      rw [hcall] at hev1
      have hst1 : g.Steps g1 := hev1
      split
      · exact hst1
      · rename_i t2 ht2
        split
        all_goals exact hst1

/-- A `Lambda`/`Closure` weight survives any step as a `Lambda`/`Closure`
weight. -/
theorem binderNode_persists {g h : AST} (hst : g.Steps h) {x : Nat}
    (hx : x < g.next_node)
    (hb : ∃ w, g.nodeWeight x = some w ∧ w.isBinderNode = true)
    {w' : Node} (hw' : h.nodeWeight x = some w') : w'.isBinderNode = true := by
  obtain ⟨w, hw, hbn⟩ := hb
  rcases hst.2.2.2 x w' hx hw' with hsame | ⟨s, rfl, hlam⟩
  · rw [hw] at hsame
    injection hsame with h1
    rw [← h1]
    exact hbn
  · rfl

/-- The application-chain building fold of the `#match` success branch
preserves the invariant; every accumulated application id stays live. -/
theorem steps_match_fold {g2 : AST} (hg2 : g2.BinderInv) :
    ∀ (bs : List Nat) (acc : AST × List Nat),
      g2.Steps acc.1 →
      (∀ c ∈ bs, c < g2.next_node ∧
        ∃ w, g2.nodeWeight c = some w ∧ w.isBinderNode = true) →
      (∀ x w', g2.nodeWeight x = some w' → acc.1.nodeWeight x = some w') →
      (∀ a ∈ acc.2, a < acc.1.next_node) →
      g2.Steps (bs.foldl
        (fun (acc : AST × List Nat) constructor_binder =>
          let hv := acc.1.add_node (.Variable .Bound)
          let h1 := hv.1.add_edge hv.2 constructor_binder (.Binder 0)
          let ha := h1.add_node .Application
          let h3 := ha.1.add_edge ha.2 hv.2 .Parameter
          (h3, ha.2 :: acc.2)) acc).1 ∧
      (∀ x w', g2.nodeWeight x = some w' →
        (bs.foldl
          (fun (acc : AST × List Nat) constructor_binder =>
            let hv := acc.1.add_node (.Variable .Bound)
            let h1 := hv.1.add_edge hv.2 constructor_binder (.Binder 0)
            let ha := h1.add_node .Application
            let h3 := ha.1.add_edge ha.2 hv.2 .Parameter
            (h3, ha.2 :: acc.2)) acc).1.nodeWeight x = some w') ∧
      (∀ a ∈ (bs.foldl
          (fun (acc : AST × List Nat) constructor_binder =>
            let hv := acc.1.add_node (.Variable .Bound)
            let h1 := hv.1.add_edge hv.2 constructor_binder (.Binder 0)
            let ha := h1.add_node .Application
            let h3 := ha.1.add_edge ha.2 hv.2 .Parameter
            (h3, ha.2 :: acc.2)) acc).2,
        a < (bs.foldl
          (fun (acc : AST × List Nat) constructor_binder =>
            let hv := acc.1.add_node (.Variable .Bound)
            let h1 := hv.1.add_edge hv.2 constructor_binder (.Binder 0)
            let ha := h1.add_node .Application
            let h3 := ha.1.add_edge ha.2 hv.2 .Parameter
            (h3, ha.2 :: acc.2)) acc).1.next_node) := by
  intro bs
  induction bs with
  | nil =>
    intro acc hst hbs hpres hacc
    exact ⟨hst, hpres, hacc⟩
  | cons c bs ih =>
    intro acc hst hbs hpres hacc
    rw [List.foldl_cons]
    obtain ⟨hclt, wc, hwc, hbn⟩ := hbs c (by simp)
    have hv1 := steps_add_node hst.1 (.Variable .Bound)
    have hstv := steps_trans hst hv1
    have hprev : ∀ x w', g2.nodeWeight x = some w' →
        (acc.1.add_node (.Variable .Bound)).1.nodeWeight x = some w' := by
      intro x w' hxw
      have hxlt : x < g2.next_node := lt_next_of_weight_some hg2.1.1 hxw
      rw [nodeWeight_add_node_other]
      · exact hpres x w' hxw
      · have := hst.2.1
        omega
    have he1 : (acc.1.add_node (.Variable .Bound)).1.Steps
        ((acc.1.add_node (.Variable .Bound)).1.add_edge
          (acc.1.add_node (.Variable .Bound)).2 c (.Binder 0)) := by
      refine steps_add_edge_binder hstv.1 ?_ ?_ ?_ rfl ?_
      · show acc.1.next_node < acc.1.next_node + 1
        omega
      · show c < acc.1.next_node + 1
        have := hst.2.1
        omega
      · exact ⟨wc, hprev c wc hwc, hbn⟩
      · intro _
        refine ⟨rfl, ?_⟩
        intro e hemem hesrc
        exfalso
        exact fresh_no_src hst.1.1.2.2 (.Variable .Bound) e hemem hesrc
    have hst2 := steps_trans hstv he1
    have ha1 := steps_add_node hst2.1 .Application
    have hst3 := steps_trans hst2 ha1
    have he2 := steps_add_edge_nonbinder hst3.1
      (s := ((((acc.1.add_node (.Variable .Bound)).1.add_edge
        (acc.1.add_node (.Variable .Bound)).2 c (.Binder 0)).add_node
          .Application)).2)
      (t := (acc.1.add_node (.Variable .Bound)).2)
      (by
        show acc.1.next_node + 1 < acc.1.next_node + 1 + 1
        omega)
      (by
        show acc.1.next_node < acc.1.next_node + 1 + 1
        omega)
      (show Edge.isBinder .Parameter = false from rfl)
    have hst4 := steps_trans hst3 he2
    dsimp only []
    refine ih _ hst4 (fun x hx => hbs x (by simp [hx])) ?_ ?_
    · intro x w' hxw
      have hx1 := hprev x w' hxw
      have hxlt : x < g2.next_node := lt_next_of_weight_some hg2.1.1 hxw
      have hx2 : ((((acc.1.add_node (.Variable .Bound)).1.add_edge
          (acc.1.add_node (.Variable .Bound)).2 c (.Binder 0)).add_node
            .Application)).1.nodeWeight x = some w' := by
        rw [nodeWeight_add_node_other]
        · exact hx1
        · have := hst.2.1
          show x ≠ acc.1.next_node + 1
          omega
      exact hx2
    · intro a hamem
      show a < acc.1.next_node + 1 + 1
      rcases List.mem_cons.1 hamem with rfl | hamem
      · show acc.1.next_node + 1 < acc.1.next_node + 1 + 1
        omega
      · have := hacc a hamem
        omega

/-- The `Function`-edge chain fold of the `#match` success branch preserves
the invariant. -/
theorem steps_function_chain {g2 : AST} :
    ∀ (pairs : List (Nat × Nat)) (h : AST), g2.Steps h →
      (∀ p ∈ pairs, p.1 < h.next_node ∧ p.2 < h.next_node) →
      g2.Steps (pairs.foldl (fun h w => h.add_edge w.1 w.2 .Function) h) := by
  intro pairs
  induction pairs with
  | nil =>
    intro h hst _
    exact hst
  | cons p ps ih =>
    intro h hst hb
    rw [List.foldl_cons]
    have hp := hb p (by simp)
    have hstep := steps_add_edge_nonbinder hst.1 hp.1 hp.2
      (show Edge.isBinder .Function = false from rfl)
    refine ih _ (steps_trans hst hstep) ?_
    intro q hq
    have := hb q (by simp [hq])
    show q.1 < h.next_node ∧ q.2 < h.next_node
    exact this

/-- `HelperFunctionTag.evaluateT` satisfies the contract. -/
theorem steps_helperT {ev : AST → Nat → EvalR (Nat × AST)} (hev : EvSteps ev)
    (wfuel : Nat) (t : HelperFunctionTag) {g : AST} (hinv : g.BinderInv)
    (id : Nat) :
    ROkP g (fun rg => g.Steps rg.2)
      (HelperFunctionTag.evaluateT ev wfuel t g id) := by
  unfold HelperFunctionTag.evaluateT
  split
  · trivial
  · rename_i binders hbinders
    split
    · -- CreateConstructor
      split
      · rename_i arity_binder
        have hx := steps_extractT hev hinv arity_binder
        split
        · trivial
        · rename_i e gA hcall
          rw [hcall] at hx
          exact hx
        · rename_i p g1 hcall
          rw [hcall] at hx
          have hst1 : g.Steps g1 := hx
          dsimp only []
          have hst2 : g.Steps { g1 with next_uid := g1.next_uid + 1 } := hst1
          have hadd := steps_add_node hst2.1
            (.Data (.CustomTag g1.next_uid p.extract_number))
          have hst3 := steps_trans hst2 hadd
          have hmig := steps_migrate_node hst3.1 id
            (by show g1.next_node < g1.next_node + 1; omega)
          have hst4 := steps_trans hst3 hmig.1
          exact steps_trans hst4 (steps_remove_node hst4.1 id)
      · exact steps_refl hinv
    · -- Match
      split
      · rename_i cb transform fallback vb
        have hbfact : ∀ c, c ∈ [cb, transform, fallback, vb] →
            c < g.next_node ∧
              ∃ w, g.nodeWeight c = some w ∧ w.isBinderNode = true := by
          intro c hc
          obtain ⟨e, hemem, hsrc, hdst, hbl⟩ := get_binders_mem hbinders c hc
          refine ⟨?_, ?_⟩
          · have := (hinv.1.2.2 e hemem).2
            omega
          · have := hinv.2.1 e hemem hbl
            rw [hdst] at this
            exact this
        have hecp1 := steps_ecpT hev hinv cb
        split
        · trivial
        · rename_i e gA hc1
          rw [hc1] at hecp1
          exact hecp1
        · rename_i constructor cdang g1 hc1
          rw [hc1] at hecp1
          have hst1 : g.Steps g1 := hecp1.1
          have hecp2 := steps_ecpT hev hst1.1 vb
          split
          · trivial
          · rename_i e gA hc2
            rw [hc2] at hecp2
            exact steps_trans hst1 hecp2
          · rename_i value vdang g2 hc2
            rw [hc2] at hecp2
            have hst2 : g.Steps g2 := steps_trans hst1 hecp2.1
            split
            · trivial
            · rename_i vuid varity hval
              split
              · trivial
              · rename_i e gA hw
                show g.Steps gA
                rw [match_walk_err wfuel g2 constructor hw]
                exact hst2
              · rename_i cuid cnode hwalk
                split
                · -- constructor and value tags agree: build the chain
                  split
                  · trivial
                  · rename_i value_binders hvb
                    dsimp only []
                    have hvbs : ∀ c ∈ value_binders, c < g2.next_node ∧
                        ∃ w, g2.nodeWeight c = some w ∧
                          w.isBinderNode = true := by
                      intro c hc
                      obtain ⟨e, hemem, hsrc, hdst, hbl⟩ :=
                        get_binders_mem hvb c hc
                      refine ⟨?_, ?_⟩
                      · have := (hst2.1.1.2.2 e hemem).2
                        omega
                      · have := hst2.1.2.1 e hemem hbl
                        rw [hdst] at this
                        exact this
                    have hfold := steps_match_fold hst2.1 value_binders (g2, [])
                      (steps_refl hst2.1) hvbs (fun x w' hxw => hxw) (by simp)
                    set ga := value_binders.foldl
                      (fun (acc : AST × List Nat) constructor_binder =>
                        let hv := acc.1.add_node (.Variable .Bound)
                        let h1 := hv.1.add_edge hv.2 constructor_binder
                          (.Binder 0)
                        let ha := h1.add_node .Application
                        let h3 := ha.1.add_edge ha.2 hv.2 .Parameter
                        (h3, ha.2 :: acc.2)) (g2, []) with hga
                    have hg4 : g2.Steps
                          (if vdang then ga.1.remove_node value else ga.1) ∧
                        (if vdang then ga.1.remove_node value
                          else ga.1).next_node = ga.1.next_node := by
                      cases vdang
                      · exact ⟨hfold.1, rfl⟩
                      · exact ⟨steps_trans hfold.1
                          (steps_remove_node hfold.1.1 value), rfl⟩
                    set g4 := if vdang then ga.1.remove_node value else ga.1
                      with hg4def
                    have htv := steps_add_node hg4.1.1 (.Variable .Bound)
                    have hstv : g2.Steps (g4.add_node (.Variable .Bound)).1 :=
                      steps_trans hg4.1 htv
                    split
                    · trivial
                    · rename_i wtr hwtr
                      have htrf := hbfact transform (by simp)
                      have hstv' : g.Steps (g4.add_node (.Variable .Bound)).1 :=
                        steps_trans hst2 hstv
                      have hnxt : (g4.add_node
                          (.Variable .Bound)).1.next_node = g4.next_node + 1 :=
                        rfl
                      have he1 : (g4.add_node (.Variable .Bound)).1.Steps
                          ((g4.add_node (.Variable .Bound)).1.add_edge
                            (g4.add_node (.Variable .Bound)).2 transform
                            (.Binder 0)) := by
                        refine steps_add_edge_binder hstv'.1 ?_ ?_ ?_ rfl ?_
                        · show g4.next_node < g4.next_node + 1
                          omega
                        · show transform < g4.next_node + 1
                          have h2 := hstv'.2.1
                          rw [hnxt] at h2
                          have h1 := htrf.1
                          omega
                        · exact ⟨wtr, hwtr,
                            binderNode_persists hstv' htrf.1 htrf.2 hwtr⟩
                        · intro _
                          refine ⟨rfl, ?_⟩
                          intro e hemem hesrc
                          exfalso
                          exact fresh_no_src hg4.1.1.1.2.2 (.Variable .Bound)
                            e hemem hesrc
                      have hst6 : g.Steps
                          ((g4.add_node (.Variable .Bound)).1.add_edge
                            (g4.add_node (.Variable .Bound)).2 transform
                            (.Binder 0)) :=
                        steps_trans hstv' he1
                      have hchainb : ∀ a ∈ ga.2 ++ [(g4.add_node
                            (.Variable .Bound)).2],
                          a < ((g4.add_node (.Variable .Bound)).1.add_edge
                            (g4.add_node (.Variable .Bound)).2 transform
                            (.Binder 0)).next_node := by
                        intro a hamem
                        show a < g4.next_node + 1
                        rcases List.mem_append.1 hamem with hamem | hamem
                        · have := hfold.2.2 a hamem
                          rw [hg4.2]
                          omega
                        · simp only [List.mem_singleton] at hamem
                          rw [hamem]
                          show g4.next_node < g4.next_node + 1
                          omega
                      have hchain := steps_function_chain
                        (((ga.2 ++ [(g4.add_node (.Variable .Bound)).2]).zip
                          (ga.2 ++ [(g4.add_node (.Variable .Bound)).2]).tail))
                        _ (steps_refl hst6.1)
                        (by
                          intro p hp
                          have hmem := List.of_mem_zip hp
                          refine ⟨hchainb p.1 hmem.1, hchainb p.2 ?_⟩
                          exact (List.tail_sublist _).subset hmem.2)
                      have hst7 := steps_trans hst6 hchain
                      split
                      · trivial
                      · rename_i head hhead
                        have hheadmem : head ∈ ga.2 ++
                            [(g4.add_node (.Variable .Bound)).2] :=
                          List.mem_of_mem_head? (by rw [hhead]; rfl)
                        have hheadlt := hchainb head hheadmem
                        have hmig := steps_migrate_node hst7.1 id
                          (b := head)
                          (by
                            have := hchain.2.1
                            omega)
                        have hst8 := steps_trans hst7 hmig.1
                        have hst9 := steps_trans hst8
                          (steps_remove_node hst8.1 id)
                        exact (hev _ head hst9.1).mono hst9
                          (fun a ha => steps_trans hst9 ha)
                · -- tags differ: call the fallback
                  have hfbf := hbfact fallback (by simp)
                  have hvbf := hbfact vb (by simp)
                  have hvlt : value < g2.next_node :=
                    lt_next_of_weight_some hst2.1.1.1 hval
                  have hfv := steps_add_node hst2.1 (.Variable .Bound)
                  have hstf : g.Steps (g2.add_node (.Variable .Bound)).1 :=
                    steps_trans hst2 hfv
                  cases vdang with
                  | true =>
                    dsimp only []
                    split
                    · trivial
                    · rename_i wfb hwfb
                      have he1 : (g2.add_node (.Variable .Bound)).1.Steps
                          ((g2.add_node (.Variable .Bound)).1.add_edge
                            (g2.add_node (.Variable .Bound)).2 fallback
                            (.Binder 0)) := by
                        refine steps_add_edge_binder hstf.1 ?_ ?_ ?_ rfl ?_
                        · show g2.next_node < g2.next_node + 1
                          omega
                        · show fallback < g2.next_node + 1
                          have := hst2.2.1
                          have h1 := hfbf.1
                          omega
                        · exact ⟨wfb, hwfb,
                            binderNode_persists hstf hfbf.1 hfbf.2 hwfb⟩
                        · intro _
                          refine ⟨rfl, ?_⟩
                          intro e hemem hesrc
                          exfalso
                          exact fresh_no_src hst2.1.1.2.2 (.Variable .Bound)
                            e hemem hesrc
                      have hst4 := steps_trans hstf he1
                      have hap := steps_add_node hst4.1 .Application
                      have hst5 := steps_trans hst4 hap
                      have he2 := steps_add_edge_nonbinder hst5.1
                        (by
                          show g2.next_node + 1 < g2.next_node + 1 + 1
                          omega)
                        (by
                          show g2.next_node < g2.next_node + 1 + 1
                          omega)
                        (show Edge.isBinder .Function = false from rfl)
                      have hst6 := steps_trans hst5 he2
                      have he3 := steps_add_edge_nonbinder hst6.1
                        (by
                          show g2.next_node + 1 < g2.next_node + 1 + 1
                          omega)
                        (by
                          show value < g2.next_node + 1 + 1
                          omega)
                        (show Edge.isBinder .Parameter = false from rfl)
                      have hst7 := steps_trans hst6 he3
                      have hmig := steps_migrate_node hst7.1 id
                        (by
                          show g2.next_node + 1 < g2.next_node + 1 + 1
                          omega)
                      have hst8 := steps_trans hst7 hmig.1
                      have hst9 := steps_trans hst8
                        (steps_remove_node hst8.1 id)
                      exact (hev _ _ hst9.1).mono hst9
                        (fun a ha => steps_trans hst9 ha)
                  | false =>
                    dsimp only []
                    split
                    · trivial
                    · rename_i wfb hwfb
                      have he1 : (g2.add_node (.Variable .Bound)).1.Steps
                          ((g2.add_node (.Variable .Bound)).1.add_edge
                            (g2.add_node (.Variable .Bound)).2 fallback
                            (.Binder 0)) := by
                        refine steps_add_edge_binder hstf.1 ?_ ?_ ?_ rfl ?_
                        · show g2.next_node < g2.next_node + 1
                          omega
                        · show fallback < g2.next_node + 1
                          have := hst2.2.1
                          have h1 := hfbf.1
                          omega
                        · exact ⟨wfb, hwfb,
                            binderNode_persists hstf hfbf.1 hfbf.2 hwfb⟩
                        · intro _
                          refine ⟨rfl, ?_⟩
                          intro e hemem hesrc
                          exfalso
                          exact fresh_no_src hst2.1.1.2.2 (.Variable .Bound)
                            e hemem hesrc
                      have hst4 := steps_trans hstf he1
                      split
                      · trivial
                      · rename_i u hguard
                        have hvw : ∃ wvb,
                            ((g2.add_node (.Variable .Bound)).1.add_edge
                              (g2.add_node (.Variable .Bound)).2 fallback
                              (.Binder 0)).nodeWeight vb = some wvb := by
                          revert hguard
                          cases hvw0 : ((g2.add_node
                              (.Variable .Bound)).1.add_edge
                              (g2.add_node (.Variable .Bound)).2 fallback
                              (.Binder 0)).nodeWeight vb with
                          | none =>
                            intro hguard
                            cases hguard
                          | some wvb =>
                            intro _
                            exact ⟨wvb, rfl⟩
                        obtain ⟨wvb, hvw⟩ := hvw
                        have hhv := steps_add_node hst4.1 (.Variable .Bound)
                        have hst5 := steps_trans hst4 hhv
                        have hvw2 : (((g2.add_node
                            (.Variable .Bound)).1.add_edge
                            (g2.add_node (.Variable .Bound)).2 fallback
                            (.Binder 0)).add_node
                              (.Variable .Bound)).1.nodeWeight vb =
                            some wvb := by
                          rw [nodeWeight_add_node_other]
                          · exact hvw
                          · have := hst2.2.1
                            have h1 := hvbf.1
                            show vb ≠ g2.next_node + 1
                            omega
                        have he2 : (((g2.add_node (.Variable .Bound)).1.add_edge
                            (g2.add_node (.Variable .Bound)).2 fallback
                            (.Binder 0)).add_node (.Variable .Bound)).1.Steps
                            ((((g2.add_node (.Variable .Bound)).1.add_edge
                              (g2.add_node (.Variable .Bound)).2 fallback
                              (.Binder 0)).add_node (.Variable .Bound)).1.add_edge
                              ((((g2.add_node (.Variable .Bound)).1.add_edge
                                (g2.add_node (.Variable .Bound)).2 fallback
                                (.Binder 0)).add_node (.Variable .Bound))).2 vb
                              (.Binder 0)) := by
                          refine steps_add_edge_binder hst5.1 ?_ ?_ ?_ rfl ?_
                          · show g2.next_node + 1 < g2.next_node + 1 + 1
                            omega
                          · show vb < g2.next_node + 1 + 1
                            have := hst2.2.1
                            have h1 := hvbf.1
                            omega
                          · exact ⟨wvb, hvw2,
                              binderNode_persists hst5 hvbf.1 hvbf.2 hvw2⟩
                          · intro _
                            refine ⟨rfl, ?_⟩
                            intro e hemem hesrc
                            exfalso
                            exact fresh_no_src hst4.1.1.2.2 (.Variable .Bound)
                              e hemem hesrc
                        have hst6 := steps_trans hst5 he2
                        have hap := steps_add_node hst6.1 .Application
                        have hst7 := steps_trans hst6 hap
                        have he3 := steps_add_edge_nonbinder hst7.1
                          (by
                            show g2.next_node + 2 < g2.next_node + 1 + 1 + 1
                            omega)
                          (by
                            show g2.next_node < g2.next_node + 1 + 1 + 1
                            omega)
                          (show Edge.isBinder .Function = false from rfl)
                        have hst8 := steps_trans hst7 he3
                        have he4 := steps_add_edge_nonbinder hst8.1
                          (by
                            show g2.next_node + 2 < g2.next_node + 1 + 1 + 1
                            omega)
                          (by
                            show g2.next_node + 1 < g2.next_node + 1 + 1 + 1
                            omega)
                          (show Edge.isBinder .Parameter = false from rfl)
                        have hst9 := steps_trans hst8 he4
                        have hmig := steps_migrate_node hst9.1 id
                          (by
                            show g2.next_node + 2 < g2.next_node + 1 + 1 + 1
                            omega)
                        have hst10 := steps_trans hst9 hmig.1
                        have hst11 := steps_trans hst10
                          (steps_remove_node hst10.1 id)
                        exact (hev _ _ hst11.1).mono hst11
                          (fun a ha => steps_trans hst11 ha)
            all_goals exact hst2
      · exact steps_refl hinv

/-- `ArithmeticTag.evaluateT` satisfies the contract. -/
theorem steps_arithT {ev : AST → Nat → EvalR (Nat × AST)} (hev : EvSteps ev)
    (t : ArithmeticTag) {g : AST} (hinv : g.BinderInv) (id : Nat) :
    ROkP g (fun rg => g.Steps rg.2) (ArithmeticTag.evaluateT ev t g id) := by
  unfold ArithmeticTag.evaluateT
  have hf1 := steps_fetchT hev hinv id 0
  split
  · trivial
  · rename_i e gA hcall
    rw [hcall] at hf1
    exact hf1
  · rename_i what g1 hcall
    rw [hcall] at hf1
    have hst1 : g.Steps g1 := hf1
    have hf2 := steps_fetchT hev hst1.1 id 1
    split
    · trivial
    · rename_i e gA hcall2
      rw [hcall2] at hf2
      exact steps_trans hst1 hf2
    · rename_i to2 g2 hcall2
      rw [hcall2] at hf2
      have hst2 : g.Steps g2 := steps_trans hst1 hf2
      split
      · exact hst2
      · rename_i whatn
        split
        · exact hst2
        · rename_i ton
          split
          · dsimp only []
            have hch := steps_add_church hst2.1 (whatn == ton)
            have hmig := steps_migrate_node hch.1.1 id hch.2
            exact steps_trans hst2 (steps_trans hch.1 hmig.1)
          all_goals (
            split
            · trivial
            · rename_i n hn
              dsimp only []
              have hadd := steps_add_node hst2.1 (.Primitive (.Number n))
              have hmig := steps_migrate_node hadd.1 id
                (by show g2.next_node < g2.next_node + 1; omega)
              exact steps_trans hst2 (steps_trans hadd hmig.1))

/-- `ConstructorTag.evaluateT` satisfies the contract. -/
theorem steps_ctagT {ev : AST → Nat → EvalR (Nat × AST)} (hev : EvSteps ev)
    (wfuel : Nat) (tag : ConstructorTag) {g : AST} (hinv : g.BinderInv)
    (id : Nat) :
    ROkP g (fun rg => g.Steps rg.2)
      (ConstructorTag.evaluateT ev wfuel tag g id) := by
  unfold ConstructorTag.evaluateT
  split
  · exact steps_arithT hev _ hinv id
  · exact steps_helperT hev wfuel _ hinv id
  · exact steps_refl hinv

/-- Every run of `evaluate` satisfies the preservation contract: the binder
invariant holds in the graph it hands back, successfully or in an error. -/
theorem steps_evaluate : ∀ fuel, EvSteps (evaluate fuel) := by
  intro fuel
  induction fuel with
  | zero =>
    intro g n hinv
    trivial
  | succ fuel ih =>
    intro g n hinv
    rw [evaluate]
    split
    · trivial
    · -- Closure: evaluate the body
      split
      · exact steps_refl hinv
      · rename_i body hbody
        exact ih g body hinv
    · -- Application
      split
      · exact steps_refl hinv
      · rename_i func hfunc
        have hev1 := ih g func hinv
        split
        · trivial
        · rename_i e gA hcall
          rw [hcall] at hev1
          exact hev1
        · rename_i under g1 hcall
          rw [hcall] at hev1
          have hst1 : g.Steps g1 := hev1
          split
          · trivial
          · rename_i e gA hlift
            show g.Steps gA
            rw [lift_err hlift]
            exact hst1
          · rename_i g2 hlift
            have hst2 : g.Steps g2 := steps_trans hst1
              (steps_lift_closure_chain hst1.1
                (show Edge.isBinder .Function = false from rfl) hlift)
            split
            · exact hst2
            · rename_i ft hft
              split
              · exact hst2
              · rename_i pt hpt
                split
                · trivial
                · rename_i argname hwft
                  split
                  · -- dead parameter: skip through
                    exact (steps_skipT ih (fuel + 1) hst2.1 n ft pt).mono hst2
                      (fun a ha => steps_trans hst2 ha)
                  · split
                    · trivial
                    · -- aliasing shortcut
                      split
                      · exact hst2
                      · rename_i tb htb
                        split
                        · trivial
                        · rename_i g3 hredir
                          have hst3 : g.Steps g3 := steps_trans hst2
                            (steps_redirect_binder_refs _ g2 hst2.1
                              (dst_lt_of_follow hst2.1.1.2.2 htb)
                              (binder_target_of_follow hst2.1.2.1 htb) hredir)
                          exact (steps_skipT ih (fuel + 1) hst3.1 n ft
                            pt).mono hst3 (fun a ha => steps_trans hst3 ha)
                    · -- general case: rewrite the lambda into a closure
                      dsimp only []
                      have hftlt : ft < g2.next_node :=
                        dst_lt_of_follow hst2.1.1.2.2 hft
                      have hmig := steps_migrate_node hst2.1 n hftlt
                      have hst3 := steps_trans hst2 hmig.1
                      have hwl : (g2.migrate_node n ft).nodeWeight ft =
                          some (.Lambda argname) := by
                        rw [nodeWeight_migrate_node]
                        exact hwft
                      have hsw := steps_set_weight_closure hst3.1 hwl
                      have hst4 := steps_trans hst3 hsw
                      split
                      · exact hst4
                      · rename_i pt2 hpt2
                        have hpt2lt := dst_lt_of_follow hst4.1.1.2.2 hpt2
                        have hftlt4 : ft < ((g2.migrate_node n ft).set_weight
                            ft (.Closure argname)).next_node := by
                          have h2 := hmig.1.2.1
                          show ft < (g2.migrate_node n ft).next_node
                          omega
                        have hadd := steps_add_edge_nonbinder hst4.1 hftlt4
                          hpt2lt (show Edge.isBinder .Parameter = false from rfl)
                        have hst5 := steps_trans hst4 hadd
                        have hst6 := steps_trans hst5
                          (steps_remove_node hst5.1 n)
                        exact (ih _ ft hst6.1).mono hst6
                          (fun a ha => steps_trans hst6 ha)
                · -- the head is not a lambda: hand the application back
                  exact hst2
    · -- bound variable
      split
      · exact steps_refl hinv
      · rename_i bc hbc
        have hecp := steps_ecpT ih hinv bc
        split
        · trivial
        · rename_i e gA hcall
          rw [hcall] at hecp
          exact hecp
        · rename_i parameter dang g1 hcall
          rw [hcall] at hecp
          have hst1 : g.Steps g1 := hecp.1
          have hplt : parameter < g1.next_node := hecp.2
          split
          · trivial
          · rename_i g2 cloned hcl
            have hstep : g1.Steps g2 ∧ cloned < g2.next_node := by
              revert hcl
              cases dang with
              | true =>
                intro hcl
                simp only [Option.some.injEq, Prod.mk.injEq] at hcl
                obtain ⟨rfl, rfl⟩ := hcl
                exact ⟨steps_refl hst1.1, hplt⟩
              | false =>
                intro hcl
                have hc := steps_clone_subtree (fuel + 1) g1 parameter []
                  hst1.1 (by simp) hcl
                exact ⟨hc.1, hc.2.2.1⟩
            have hst2 := steps_trans hst1 hstep.1
            have hmig := steps_migrate_node hst2.1 n hstep.2
            have hst3 := steps_trans hst2 hmig.1
            exact steps_trans hst3 (steps_remove_node hst3.1 n)
    · -- builtin data
      rename_i tag htag
      exact steps_ctagT ih (fuel + 1) tag hinv n
    · -- primitives, lambdas, free variables, debug nodes
      exact steps_refl hinv

/-- One `garbage_collect` batch preserves the invariant. -/
theorem steps_gc_batch (fuel : Nat) :
    ∀ (l : List Nat) (g : AST), g.BinderInv →
      ∀ {out : AST}, garbage_collect_batch fuel g l = some out →
        g.Steps out := by
  intro l
  induction l with
  | nil =>
    intro g hinv out hout
    simp only [garbage_collect_batch, Option.some.injEq] at hout
    rw [← hout]
    exact steps_refl hinv
  | cons c rest ih =>
    intro g hinv out hout
    simp only [garbage_collect_batch] at hout
    split at hout
    · cases hout
    · rename_i parameter g1 hrc
      split at hout
      · cases hout
      · rename_i g2 hrs
        have h1 := steps_remove_closure hinv hrc
        have h2 := steps_remove_subtree h1.1.1 hrs
        have h12 := steps_trans h1.1 h2
        exact steps_trans h12 (ih g2 h12.1 hout)

/-- `garbage_collect` preserves the invariant. -/
theorem steps_garbage_collect :
    ∀ (fuel : Nat) (g : AST), g.BinderInv →
      ∀ {out : AST}, garbage_collect fuel g = some out → g.Steps out := by
  intro fuel
  induction fuel with
  | zero =>
    intro g _ out hout
    cases hout
  | succ fuel ih =>
    intro g hinv out hout
    rw [garbage_collect] at hout
    split at hout
    · simp only [Option.some.injEq] at hout
      rw [← hout]
      exact steps_refl hinv
    · split at hout
      · cases hout
      · rename_i g1 hbatch
        have h1 := steps_gc_batch (fuel + 1) _ g hinv hbatch
        exact steps_trans h1 (ih g1 h1.1 hout)

/-- The invariant gives the claim's per-variable reading: a bound variable
has at most one outgoing `Binder` edge, it is `Binder 0`, and its target is
a `Lambda` or `Closure` node. -/
theorem binder_at_most_one {g : AST} (hwf : g.Wf) (hbt : g.BinderTargets)
    (hvb : g.VarBinders) (v : Nat)
    (hv : g.nodeWeight v = some (.Variable .Bound)) :
    ((g.outgoing v).filter (fun e => e.lab.isBinder)).length ≤ 1 ∧
    ∀ e ∈ g.edges, e.src = v → e.lab.isBinder = true →
      e.lab = .Binder 0 ∧
      ∃ w, g.nodeWeight e.dst = some w ∧ w.isBinderNode = true := by
  have hunpack : ∀ e, e ∈ (g.outgoing v).filter (fun e => e.lab.isBinder) →
      e ∈ g.edges ∧ e.src = v ∧ e.lab.isBinder = true := by
    intro e he
    have h1 := List.mem_filter.1 he
    have h2 := List.mem_filter.1 h1.1
    refine ⟨h2.1, by simpa using h2.2, h1.2⟩
  constructor
  · rcases hfl : (g.outgoing v).filter (fun e => e.lab.isBinder) with
      _ | ⟨e1, _ | ⟨e2, rest⟩⟩
    · rw [hfl]
      simp
    · rw [hfl]
      simp
    · exfalso
      have hsub : ((g.outgoing v).filter
          (fun e => e.lab.isBinder)).Sublist g.edges :=
        (List.filter_sublist _).trans (List.filter_sublist _)
      have hpw := hwf.2.1.2.sublist hsub
      rw [hfl] at hpw
      have hne : e1.eid ≠ e2.eid := (List.pairwise_cons.1 hpw).1 e2 (by simp)
      obtain ⟨he1g, hsrc1, hb1⟩ := hunpack e1 (by rw [hfl]; simp)
      obtain ⟨he2g, hsrc2, hb2⟩ := hunpack e2 (by rw [hfl]; simp)
      have := (hvb e1 he1g (by rw [hsrc1]; exact hv) hb1).2 e2 he2g
        (by rw [hsrc2, hsrc1]) hb2
      exact hne this.symm
  · intro e hemem hesrc hbl
    have h1 := hvb e hemem (by rw [hesrc]; exact hv) hbl
    obtain ⟨w, hw, hbn⟩ := hbt e hemem hbl
    exact ⟨h1.1, w, hw, hbn⟩

/-- `BinderTargets` as a boolean scan of the edge list (for `decide`). -/
theorem binderTargets_iff (g : AST) : g.BinderTargets ↔
    (g.edges.all fun e => !e.lab.isBinder ||
      ((g.nodeWeight e.dst).map Node.isBinderNode).getD false) = true := by
  rw [List.all_eq_true]
  constructor
  · intro h e he
    by_cases hb : e.lab.isBinder = true
    · obtain ⟨w, hw, hbn⟩ := h e he hb
      rw [hw]
      simp [hbn]
    · rw [Bool.not_eq_true] at hb
      simp [hb]
  · intro h e he hb
    have he2 := h e he
    rw [hb] at he2
    simp only [Bool.not_true, Bool.false_or] at he2
    cases hw : g.nodeWeight e.dst with
    | none =>
      rw [hw] at he2
      simp at he2
    | some w =>
      rw [hw] at he2
      simp at he2
      exact ⟨w, rfl, he2⟩

instance (g : AST) : Decidable g.BinderTargets :=
  decidable_of_iff' _ (binderTargets_iff g)

/-- The weakened (at-most-one) binder-uniqueness property over the whole
graph: every bound variable has at most one outgoing `Binder` edge, and
every `Binder` edge leaving a bound variable is `Binder 0` with a live
`Lambda` or `Closure` target. -/
def AST.BinderAtMostOne (g : AST) : Prop :=
  ∀ v, g.nodeWeight v = some (.Variable .Bound) →
    ((g.outgoing v).filter (fun e => e.lab.isBinder)).length ≤ 1 ∧
    ∀ e ∈ g.edges, e.src = v → e.lab.isBinder = true →
      e.lab = .Binder 0 ∧
      ∃ w, g.nodeWeight e.dst = some w ∧ w.isBinderNode = true

instance (g : AST) : Decidable g.WfN :=
  inferInstanceAs (Decidable (∀ p ∈ g.nodes, p.1 < g.next_node))

instance (g : AST) : Decidable g.WfE :=
  inferInstanceAs (Decidable ((∀ e ∈ g.edges, e.eid < g.next_edge) ∧
    g.edges.Pairwise (fun a b : EdgeRec => a.eid ≠ b.eid)))

instance (g : AST) : Decidable g.WfEnd :=
  inferInstanceAs (Decidable (∀ e ∈ g.edges, e.src < g.next_node ∧ e.dst < g.next_node))

instance (g : AST) : Decidable g.Wf :=
  inferInstanceAs (Decidable (g.WfN ∧ g.WfE ∧ g.WfEnd))

instance (g : AST) : Decidable g.VarBinders :=
  inferInstanceAs (Decidable (∀ e ∈ g.edges,
    g.nodeWeight e.src = some (.Variable .Bound) → e.lab.isBinder = true →
      e.lab = .Binder 0 ∧
      ∀ f ∈ g.edges, f.src = e.src → f.lab.isBinder = true → f.eid = e.eid))

instance (g : AST) : Decidable g.BinderInv :=
  inferInstanceAs (Decidable (g.Wf ∧ g.BinderTargets ∧ g.VarBinders))

/-! ### C3: preservation of the weakened binder-uniqueness invariant -/

/-- C3 (amended): binder uniqueness, weakened from exactly-one to
at-most-one, is an invariant of the public reducer calls.  If before the
call the graph is structurally wellformed (`Wf`), every `Binder` edge
targets a live `Lambda` or `Closure` node (`BinderTargets`), and every
`Binder` edge leaving a bound variable is `Binder 0` and unique for that
variable (`VarBinders`) — a hypothesis over all bound variables, reachable
ones in particular — then whenever `evaluate` succeeds, and whenever
`garbage_collect` succeeds, the resulting graph satisfies the same three
invariants again, hence every bound variable (reachable or not) has at
most one outgoing `Binder` edge, any such edge is `Binder 0`, and its
target is a live `Lambda` or `Closure` node.  The exactly-one reading of
the original claim is refuted by the dead-parameter shortcut, which can
delete the binder of a still-reachable variable. -/
theorem C3_binder_uniqueness (g : AST) (hinv : g.BinderInv) :
    (∀ fuel n n' g', evaluate fuel g n = .ok (n', g') →
        g'.BinderInv ∧ g'.BinderAtMostOne) ∧
    (∀ fuel g', garbage_collect fuel g = some g' →
        g'.BinderInv ∧ g'.BinderAtMostOne) := by
  have hmost : ∀ g2 : AST, g2.BinderInv → g2.BinderAtMostOne := by
    intro g2 h v hv
    exact binder_at_most_one h.1 h.2.1 h.2.2 v hv
  constructor
  · intro fuel n n' g' hev
    have h := steps_evaluate fuel g n hinv
    rw [hev] at h
    have h' : g.Steps g' := h
    exact ⟨h'.1, hmost g' h'.1⟩
  · intro fuel g' hgc
    have h' := steps_garbage_collect fuel g hinv hgc
    exact ⟨h'.1, hmost g' h'.1⟩

/-- Closed instantiation of the C3 preservation theorem on the identity
application `(λx. x) 5`, whose invariant hypothesis is checked by
evaluation. -/
theorem C3_witness :
    C3wg.BinderInv ∧
    ((∀ fuel n n' g', evaluate fuel C3wg n = .ok (n', g') →
        g'.BinderInv ∧ g'.BinderAtMostOne) ∧
     (∀ fuel g', garbage_collect fuel C3wg = some g' →
        g'.BinderInv ∧ g'.BinderAtMostOne)) :=
  ⟨by decide, C3_binder_uniqueness C3wg (by decide)⟩

/-! ### C2: the contract of `evaluate_closure_parameter` -/

/-- C2: for a closure `c` whose `Parameter` evaluates successfully (to node
`under` in graph `g1`): if `c` has two or more incoming `Binder` edges
(counted, as the code does, at the decision point after the parameter has
been evaluated), `evaluate_closure_parameter` returns `c`'s `Parameter`
with `dangling = false` and `c` remains in the graph unchanged; if `c` has
exactly one incoming `Binder` edge, it strips `c` — migrates `c`'s
non-`Binder` parents to `c`'s `Body` and deletes `c` — and returns the
evaluated parameter with `dangling = true` (`q = under` whenever the
parameter edge points at the evaluated node or at a closure lifted above
it).  The auxiliary hypotheses are the standing graph invariants at the
decision point: edge ids are wellformed, the evaluated node is alive and
not itself a closure (the `assert!` inside `lift_closure_chain`), and `c`
still carries its `Parameter` edge (not looping back to `c`, with a live
target) and its `Body` edge. -/
theorem C2_evaluate_closure_parameter (fuel : Nat) (g g1 : AST) (c t0 under : Nat)
    (hpar : g.follow_edge c .Parameter = .ok t0)
    (heval : evaluate fuel g t0 = .ok (under, g1))
    (hwf : g1.WfE)
    (hunder : ∃ w, g1.nodeWeight under = some w ∧ w.isClosureNode = false)
    (hedge : ∃ e, g1.get_edge_ref c .Parameter = some e ∧ e.dst ≠ c ∧
      ∃ w, g1.nodeWeight e.dst = some w)
    (hbody : ∃ eb, g1.get_edge_ref c .Body = some eb) :
    (2 ≤ (g1.binder_references c).length →
      ∃ p g2, evaluate_closure_parameter fuel g c = .ok (p, false, g2) ∧
        g2.follow_edge c .Parameter = .ok p ∧
        g2.nodeWeight c = g1.nodeWeight c ∧
        (∀ m, g1.follow_edge c .Parameter = .ok m →
          (m = under ∨ ∃ w, g1.nodeWeight m = some w ∧ w.isClosureNode = true) →
          p = under)) ∧
    ((g1.binder_references c).length = 1 →
      ∃ q gL body g3,
        g1.lift_closure_chain c under .Parameter = .ok gL ∧
        evaluate_closure_parameter fuel g c = .ok (q, true, g3) ∧
        gL.follow_edge c .Parameter = .ok q ∧
        gL.follow_edge c .Body = .ok body ∧
        g3 = (gL.migrate_node c body).remove_node c ∧
        g3.nodeWeight c = none ∧
        (∀ e ∈ g3.edges, e.src ≠ c ∧ e.dst ≠ c) ∧
        (body ≠ c → ∀ s wt, s ≠ c → wt.isBinder = false →
          gL.follow_edge s wt = .ok c → g3.follow_edge s wt = .ok body) ∧
        (∀ m, g1.follow_edge c .Parameter = .ok m →
          (m = under ∨ ∃ w, g1.nodeWeight m = some w ∧ w.isClosureNode = true) →
          q = under)) := by
  obtain ⟨wu, hwu, hwuc⟩ := hunder
  obtain ⟨e, he, hedc, we, hwe⟩ := hedge
  obtain ⟨hemem, hesrc, heslab⟩ := AST.get_edge_ref_props he
  obtain ⟨eb, heb⟩ := hbody
  have hfolg1 : g1.follow_edge c .Parameter = .ok e.dst := by
    unfold AST.follow_edge
    rw [he]
  -- The strip helper, shared by both the closure and the non-closure case
  -- of the lift: the migrate-then-delete effect on lookups.
  have strip_effect : ∀ (gL : AST), gL.WfE → ∀ body : Nat, body ≠ c →
      ∀ s wt, s ≠ c → wt.isBinder = false →
        gL.follow_edge s wt = .ok c →
        ((gL.migrate_node c body).remove_node c).follow_edge s wt = .ok body := by
    intro gL hwfL body hbc s wt hs hnb hfol
    have hmig := AST.migrate_node_follow hwfL c body s wt
    obtain ⟨f, hf, hfdst⟩ := AST.follow_edge_ok_iff.1 hfol
    obtain ⟨hfmem, hfsrc, hflab⟩ := AST.get_edge_ref_props hf
    have hcond : (gL.edges.any fun x =>
        x.src == s && x.lab == wt && x.dst == c && !x.lab.isBinder) = true := by
      rw [List.any_eq_true]
      refine ⟨f, hfmem, ?_⟩
      simp [hfsrc, hflab, hfdst, hnb]
    rw [hcond] at hmig
    simp only [if_pos] at hmig
    exact AST.follow_remove_node_of_ok hmig hs hbc
  by_cases hcl : we.isClosureNode = true
  · -- The evaluated parameter's edge points at a closure chain: lift fires.
    set gA := g1.migrate_node c e.dst with hgA
    set gB := gA.migrate_node under c with hgB
    set gL := gB.redirect_edge e.eid under with hgL
    have hlift : g1.lift_closure_chain c under .Parameter = .ok gL :=
      AST.lift_closure_chain_closure hwf hwu hwuc he hedc hwe hcl
    have hne_under : e.dst ≠ under := by
      intro hcontra
      rw [hcontra, hwu] at hwe
      cases hwe
      rw [hcl] at hwuc
      cases hwuc
    have hwfA : gA.WfE := AST.wfE_migrate_node hwf _ _
    have hwfB : gB.WfE := AST.wfE_migrate_node hwfA _ _
    have hwfL : gL.WfE := AST.wfE_redirect_edge hwfB _ _
    have heA : e ∈ gA.edges := AST.mem_edges_migrate_of_dst_ne hwf hemem hedc _
    have heB : e ∈ gB.edges := AST.mem_edges_migrate_of_dst_ne hwfA heA hne_under _
    have hredir : gL = (gB.remove_edge e.eid).add_edge e.src under e.lab :=
      AST.redirect_edge_of_found hwfB heB under
    have hfollowP : gL.follow_edge c .Parameter = .ok under := by
      rw [hredir, hesrc, heslab]
      exact AST.follow_add_edge_self _ _ _ _
    have hnodesL : gL.nodes = g1.nodes := by
      rw [hredir, AST.nodes_add_edge, AST.nodes_remove_edge, hgB, hgA,
        AST.nodes_migrate_node, AST.nodes_migrate_node]
    have hbodyL : ∃ body, gL.follow_edge c .Body = .ok body := by
      have h1 : gL.follow_edge c .Body = gB.follow_edge c .Body := by
        rw [hredir]
        rw [AST.follow_add_edge_other _ _ (fun hc => by
          rw [heslab] at hc
          cases hc.2)]
        refine AST.follow_remove_edge_of_ne ?_
        intro x hx _ hxl hxe
        have : x = e := AST.eid_inj hwfB hx heB hxe
        subst this
        rw [heslab] at hxl
        cases hxl
      rw [h1, AST.migrate_node_follow hwfA under c c .Body]
      split
      · exact ⟨c, rfl⟩
      · rw [hgA, AST.migrate_node_follow hwf c e.dst c .Body]
        split
        · exact ⟨e.dst, rfl⟩
        · refine ⟨eb.dst, ?_⟩
          unfold AST.follow_edge
          rw [heb]
    constructor
    · -- two or more referrers: the closure is shared and survives
      intro hk
      have hdec : decide (2 ≤ (g1.binder_references c).length) = true := decide_eq_true hk
      refine ⟨under, gL, ?_, hfollowP, AST.nodeWeight_eq_of_nodes_eq hnodesL c,
        fun _ _ _ => rfl⟩
      simp only [evaluate_closure_parameter, evaluate_closure_parameterT, hpar, heval,
        hlift, hdec, if_true, hfollowP]
    · -- exactly one referrer: the closure is stripped
      intro hk
      have hdec : decide (2 ≤ (g1.binder_references c).length) = false := by
        rw [decide_eq_false_iff_not]
        omega
      obtain ⟨body, hbodyeq⟩ := hbodyL
      have hrc : gL.remove_closure c =
          some (under, (gL.migrate_node c body).remove_node c) := by
        unfold AST.remove_closure
        rw [hbodyeq, hfollowP]
      refine ⟨under, gL, body, (gL.migrate_node c body).remove_node c, hlift, ?_,
        hfollowP, hbodyeq, rfl, AST.nodeWeight_remove_node_self _ _,
        AST.edges_remove_node_not_incident _ _, ?_, fun _ _ _ => rfl⟩
      · simp only [evaluate_closure_parameter, evaluate_closure_parameterT, hpar, heval,
          hlift, hdec, if_false, Bool.false_eq_true, hrc]
      · intro hbc s wt hs hnb hfol
        exact strip_effect gL hwfL body hbc s wt hs hnb hfol
  · -- The evaluated parameter's edge points at a non-closure: no lift.
    have hcl' : we.isClosureNode = false := by
      cases h : we.isClosureNode
      · rfl
      · exact absurd h hcl
    have hlift : g1.lift_closure_chain c under .Parameter = .ok g1 :=
      AST.lift_closure_chain_nonclosure hwu hwuc he hwe hcl'
    have hq_under : ∀ m, g1.follow_edge c .Parameter = .ok m →
        (m = under ∨ ∃ w, g1.nodeWeight m = some w ∧ w.isClosureNode = true) →
        e.dst = under := by
      intro m hm hcase
      rw [hfolg1] at hm
      cases hm
      rcases hcase with h | ⟨w, hw, hwc⟩
      · exact h
      · rw [hwe] at hw
        cases hw
        rw [hwc] at hcl'
        cases hcl'
    constructor
    · intro hk
      have hdec : decide (2 ≤ (g1.binder_references c).length) = true := decide_eq_true hk
      refine ⟨e.dst, g1, ?_, hfolg1, rfl, hq_under⟩
      simp only [evaluate_closure_parameter, evaluate_closure_parameterT, hpar, heval,
        hlift, hdec, if_true, hfolg1]
    · intro hk
      have hdec : decide (2 ≤ (g1.binder_references c).length) = false := by
        rw [decide_eq_false_iff_not]
        omega
      have hfolB : g1.follow_edge c .Body = .ok eb.dst := by
        unfold AST.follow_edge
        rw [heb]
      have hrc : g1.remove_closure c =
          some (e.dst, (g1.migrate_node c eb.dst).remove_node c) := by
        unfold AST.remove_closure
        rw [hfolB, hfolg1]
      refine ⟨e.dst, g1, eb.dst, (g1.migrate_node c eb.dst).remove_node c, hlift, ?_,
        hfolg1, hfolB, rfl, AST.nodeWeight_remove_node_self _ _,
        AST.edges_remove_node_not_incident _ _, ?_, hq_under⟩
      · simp only [evaluate_closure_parameter, evaluate_closure_parameterT, hpar, heval,
          hlift, hdec, if_false, Bool.false_eq_true, hrc]
      · intro hbc s wt hs hnb hfol
        exact strip_effect g1 hwf eb.dst hbc s wt hs hnb hfol

/-- Witness graph for C2: node 0 is a `Closure` whose `Parameter` is the
`Primitive` node 1 and whose `Body` is the bound variable node 2; nodes 2
and 3 both reference the closure through `Binder(0)` edges. -/
def C2g : AST where
  nodes := [(0, .Closure "x"), (1, .Primitive (.Number 5)),
            (2, .Variable .Bound), (3, .Variable .Bound)]
  edges := [⟨3, 3, 0, .Binder 0⟩, ⟨2, 2, 0, .Binder 0⟩, ⟨1, 0, 2, .Body⟩,
            ⟨0, 0, 1, .Parameter⟩]
  root := 0
  next_node := 4
  next_edge := 4
  next_uid := 0

/-- Witness for C2 on `C2g`: the parameter (a primitive) evaluates in
place, the closure has two binder referrers, and the theorem's hypotheses
all hold by computation. -/
theorem C2_witness :
    (C2g.follow_edge 0 .Parameter = .ok 1 ∧ evaluate 5 C2g 1 = .ok (1, C2g) ∧
      2 ≤ (C2g.binder_references 0).length) ∧
    ((2 ≤ (C2g.binder_references 0).length →
      ∃ p g2, evaluate_closure_parameter 5 C2g 0 = .ok (p, false, g2) ∧
        g2.follow_edge 0 .Parameter = .ok p ∧
        g2.nodeWeight 0 = C2g.nodeWeight 0 ∧
        (∀ m, C2g.follow_edge 0 .Parameter = .ok m →
          (m = 1 ∨ ∃ w, C2g.nodeWeight m = some w ∧ w.isClosureNode = true) →
          p = 1)) ∧
    ((C2g.binder_references 0).length = 1 →
      ∃ q gL body g3,
        C2g.lift_closure_chain 0 1 .Parameter = .ok gL ∧
        evaluate_closure_parameter 5 C2g 0 = .ok (q, true, g3) ∧
        gL.follow_edge 0 .Parameter = .ok q ∧
        gL.follow_edge 0 .Body = .ok body ∧
        g3 = (gL.migrate_node 0 body).remove_node 0 ∧
        g3.nodeWeight 0 = none ∧
        (∀ e ∈ g3.edges, e.src ≠ 0 ∧ e.dst ≠ 0) ∧
        (body ≠ 0 → ∀ s wt, s ≠ 0 → wt.isBinder = false →
          gL.follow_edge s wt = .ok 0 → g3.follow_edge s wt = .ok body) ∧
        (∀ m, C2g.follow_edge 0 .Parameter = .ok m →
          (m = 1 ∨ ∃ w, C2g.nodeWeight m = some w ∧ w.isClosureNode = true) →
          q = 1))) :=
  ⟨⟨by decide, by decide, by decide⟩,
   C2_evaluate_closure_parameter 5 C2g C2g 0 1 1 (by decide) (by decide)
     ⟨by decide, by decide⟩
     ⟨.Primitive (.Number 5), by decide, by decide⟩
     ⟨⟨0, 0, 1, .Parameter⟩, by decide, by decide, ⟨.Primitive (.Number 5), by decide⟩⟩
     ⟨⟨1, 0, 2, .Body⟩, by decide⟩⟩

/-! ### C4: the `Sub` builtin saturates -/

/-- C4: for all numbers `a` (first argument) and `b` (second argument) that
the `Sub` builtin's operands evaluate to — stated as: both argument fetches
succeed with numbers `a` and `b` — `Sub` returns a fresh `Primitive` node
holding the number `max (0, b - a)`: the subtraction saturates and underflow
(`a > b`) yields `0`.  The freshness hypothesis on the graph reached after
the two fetches (all node ids below the allocation counter) is the standing
counter invariant of the graph. -/
theorem C4_sub_saturates (fuel : Nat) (g g1 g2 : AST) (id a b : Nat)
    (h0 : arithmetic_fetch fuel g id 0 = .ok (.ok a, g1))
    (h1 : arithmetic_fetch fuel g1 id 1 = .ok (.ok b, g2))
    (hfresh : ∀ p ∈ g2.nodes, p.1 < g2.next_node) :
    ∃ r g3, ArithmeticTag.evaluate fuel .Sub g id = .ok (r, g3) ∧
      g3.nodeWeight r = some (.Primitive (.Number (b - a))) ∧
      ((b - a : Nat) : Int) = max 0 ((b : Int) - (a : Int)) := by
  simp only [arithmetic_fetch] at h0 h1
  refine ⟨(g2.add_node (.Primitive (.Number (b - a)))).2,
    (g2.add_node (.Primitive (.Number (b - a)))).1.migrate_node id
      (g2.add_node (.Primitive (.Number (b - a)))).2, ?_, ?_, ?_⟩
  · simp only [ArithmeticTag.evaluate, ArithmeticTag.evaluateT, h0, h1,
      ArithmeticTag.compute]
  · rw [AST.nodeWeight_migrate_node, AST.nodeWeight_add_node_self _ _ hfresh]
  · omega

/-- Witness for C4 at `a = 10`, `b = 3` (an underflowing subtraction):
the fetch hypotheses and the freshness hypothesis hold on the concrete
graph `testG2 10 3` (which the fetches leave unchanged), and the builtin
yields `0 = max (0, 3 - 10)`. -/
theorem C4_witness :
    (arithmetic_fetch 10 (testG2 10 3) 0 0 = .ok (.ok 10, testG2 10 3) ∧
      arithmetic_fetch 10 (testG2 10 3) 0 1 = .ok (.ok 3, testG2 10 3) ∧
      ∀ p ∈ (testG2 10 3).nodes, p.1 < (testG2 10 3).next_node) ∧
    ∃ r g3, ArithmeticTag.evaluate 10 .Sub (testG2 10 3) 0 = .ok (r, g3) ∧
      g3.nodeWeight r = some (.Primitive (.Number (3 - 10))) ∧
      ((3 - 10 : Nat) : Int) = max 0 ((3 : Int) - (10 : Int)) :=
  ⟨⟨by decide, by decide, by decide⟩,
    C4_sub_saturates 10 (testG2 10 3) (testG2 10 3) (testG2 10 3) 0 10 3
      (by decide) (by decide) (by decide)⟩

end Lambo
